import Mathlib

set_option synthInstance.maxSize 512

/-!
Verification of `src/MainApplication/filecmpModified.py`, a modified copy of
Python's `filecmp` module that compares two directory trees.

The filesystem is modelled abstractly: a structure `FS` supplies the results
of `os.listdir`, `os.stat` (`none` = `OSError`), the byte contents obtained
by reading a file (`none` = `OSError` while opening/reading), and
`os.path.normcase`.  The module-level comparison cache `_cache` is threaded
explicitly as an association list.  Machine details (Python floats for
`st_mtime`) are modelled as `Nat`; only equality of mtimes is ever used by
the code, so this is faithful.
-/

namespace Filecmp

/-- File type tag: the value of `stat.S_IFMT(st.st_mode)`.  `other n`
stands for the remaining `S_IF*` constants (sockets, fifos, links, ...);
the `Nat` index keeps distinct non-regular, non-directory types distinct,
as the numeric `S_IFMT` values are. -/
inductive FType where
  | regular : FType
  | directory : FType
  | other : Nat → FType
deriving DecidableEq, Repr

/-- The fields of a successful `os.stat` result that the module reads:
`S_IFMT(st_mode)`, `st_size`, `st_mtime`. -/
structure FStat where
  ftype : FType
  size : Nat
  mtime : Nat
deriving DecidableEq, Repr

/-- An immutable snapshot of the filesystem, supplying the effects the
module performs: `os.listdir`, `os.stat` (`none` models `OSError`),
reading a file's bytes (`none` models `OSError` from `open`/`read`),
and `os.path.normcase`. -/
structure FS where
  listdir : String → List String
  stat : String → Option FStat
  read : String → Option (List Nat)
  normcase : String → String

/-- `_sig(st)`: the signature tuple `(S_IFMT(st.st_mode), st.st_size,
st.st_mtime)`. -/
def _sig (st : FStat) : FType × Nat × Nat :=
  (st.ftype, st.size, st.mtime)

/-- `BUFSIZE = 8*1024`. -/
def BUFSIZE : Nat := 8 * 1024

/-- `_do_cmp(f1, f2)` on the two byte contents: read both files in
`BUFSIZE` chunks; a differing pair of chunks gives `False`; an empty chunk
from the first file (with the chunks equal, hence both empty) gives
`True`. -/
def _do_cmp (c1 c2 : List Nat) : Bool :=
  if c1.take BUFSIZE ≠ c2.take BUFSIZE then false
  else if h : c1.take BUFSIZE = [] then true
  else _do_cmp (c1.drop BUFSIZE) (c2.drop BUFSIZE)
termination_by c1.length
decreasing_by
  have hne : c1 ≠ [] := by
    intro hc
    rw [hc] at h
    simp at h
  have hpos : 0 < c1.length := List.length_pos.mpr hne
  have hbuf : 0 < BUFSIZE := by decide
  simp only [List.length_drop]
  omega

/-- The key of the module cache `_cache`: `(f1, f2, s1, s2)`. -/
abbrev CacheKey := String × String × (FType × Nat × Nat) × (FType × Nat × Nat)

/-- The module cache `_cache`, as an association list in insertion order
(Python dicts preserve insertion order). -/
abbrev Cache := List (CacheKey × Bool)

/-- `_cache.get(key)`. -/
def cacheGet (c : Cache) (k : CacheKey) : Option Bool :=
  (c.find? (fun p => decide (p.1 = k))).map Prod.snd

/-- `_cache[key] = v`: overwrite in place when the key is present,
append otherwise (Python dict assignment). -/
def cacheSet (c : Cache) (k : CacheKey) (v : Bool) : Cache :=
  if c.any (fun p => decide (p.1 = k)) then
    c.map (fun p => if p.1 = k then (k, v) else p)
  else c ++ [(k, v)]

/-- The two ways a comparison can raise `OSError`: during `os.stat`
(metadata) or while opening/reading file content in `_do_cmp`. -/
inductive CmpError where
  | metadata : CmpError
  | readFail : CmpError
deriving DecidableEq, Repr

/-- `cmp(f1, f2, shallow)`: compare two files, returning the boolean
outcome together with the updated module cache; `.error` models a
propagated `OSError`.  Follows the source line by line: stat both paths,
reject non-regular files, shallow signature check, size check, then the
cached full comparison (the cache is cleared when its size exceeds 100
entries, before the new entry is stored). -/
def cmp (fs : FS) (cache : Cache) (f1 f2 : String) (shallow : Bool) :
    Except CmpError (Bool × Cache) :=
  match fs.stat f1, fs.stat f2 with
  | none, _ => .error .metadata
  | some _, none => .error .metadata
  | some st1, some st2 =>
    let s1 := _sig st1
    let s2 := _sig st2
    if s1.1 ≠ FType.regular ∨ s2.1 ≠ FType.regular then .ok (false, cache)
    else if shallow ∧ s1 = s2 then .ok (true, cache)
    else if s1.2.1 ≠ s2.2.1 then .ok (false, cache)
    else
      match cacheGet cache (f1, f2, s1, s2) with
      | some outcome => .ok (outcome, cache)
      | none =>
        match fs.read f1, fs.read f2 with
        | some c1, some c2 =>
          let outcome := _do_cmp c1 c2
          let cache1 := if 100 < cache.length then [] else cache
          .ok (outcome, cacheSet cache1 (f1, f2, s1, s2) outcome)
        | _, _ => .error .readFail

/-- The boolean outcome of `cmp`, discarding the updated cache. -/
def cmpResult (fs : FS) (cache : Cache) (f1 f2 : String) (shallow : Bool) :
    Except CmpError Bool :=
  (cmp fs cache f1 f2 shallow).map Prod.fst

/-- `DEFAULT_IGNORES`. -/
def DEFAULT_IGNORES : List String :=
  ["RCS", "CVS", "tags", ".git", ".hg", ".bzr", "_darcs", "__pycache__"]

/-- `os.curdir`. -/
def curdir : String := "."

/-- `os.pardir`. -/
def pardir : String := ".."

/-- `_filter(flist, skip)`: copy of `flist` with items occurring in `skip`
removed (`filterfalse(skip.__contains__, flist)`). -/
def _filter (flist skip : List String) : List String :=
  flist.filter (fun x => !skip.contains x)

/-- `os.path.join(a, x)` in POSIX form; in this model paths are opaque
keys into `FS`, so only the construction matters, not separator details. -/
def joinPath (a x : String) : String := a ++ "/" ++ x

/-- A Python dict with string keys and values, as an association list in
insertion order. -/
abbrev StrDict := List (String × String)

/-- Python dict assignment `d[k] = v`: overwrite the value in place when
the key exists (keeping its position), append otherwise. -/
def dictSet (d : StrDict) (k v : String) : StrDict :=
  if d.any (fun p => p.1 == k) then
    d.map (fun p => if p.1 == k then (k, v) else p)
  else d ++ [(k, v)]

/-- `dict(pairs)`: build a dict from a pair list, later pairs overwriting
earlier ones with the same key. -/
def dictOf (ps : List (String × String)) : StrDict :=
  ps.foldl (fun d p => dictSet d p.1 p.2) []

/-- `k in d`. -/
def dictContains (d : StrDict) (k : String) : Bool :=
  d.any (fun p => p.1 == k)

/-- `d[k]` (with `""` as the out-of-dict default; the module only ever
subscripts with keys that are present). -/
def dictGet (d : StrDict) (k : String) : String :=
  ((d.find? (fun p => p.1 == k)).map Prod.snd).getD ""

/-- The state of a `dircmp` object after `__init__`: the two directory
paths and the `ignore`/`hide` name lists. -/
structure DirCmp where
  left : String
  right : String
  ignore : List String
  hide : List String

/-- `dircmp.__init__(a, b, ignore, hide)` with `none` for an omitted
argument: `hide` defaults to `[os.curdir, os.pardir]` and `ignore` to
`DEFAULT_IGNORES`. -/
def dircmpInit (a b : String) (ignore hide : Option (List String)) : DirCmp :=
  ⟨a, b, ignore.getD DEFAULT_IGNORES, hide.getD [curdir, pardir]⟩

/-- Lexicographic comparison of strings on code points, the ascending
order `list.sort()` uses for `str` values. -/
def strLeB : List Char → List Char → Bool
  | [], _ => true
  | _ :: _, [] => false
  | c :: cs, d :: ds =>
    if c.toNat < d.toNat then true
    else if d.toNat < c.toNat then false
    else strLeB cs ds

/-- Insertion of a string into a sorted list, by the string order. -/
def insertSorted (x : String) : List String → List String
  | [] => [x]
  | y :: ys =>
    if strLeB x.data y.data then x :: y :: ys else y :: insertSorted x ys

/-- `list.sort()`: ascending sort by the string order (insertion sort;
string comparison is total, so any correct sort produces this list). -/
def sortStrings (l : List String) : List String := l.foldr insertSorted []

/-- `phase0`: `self.left_list`, the left listing filtered by
`hide + ignore` and sorted. -/
def left_list (fs : FS) (d : DirCmp) : List String :=
  sortStrings (_filter (fs.listdir d.left) (d.hide ++ d.ignore))

/-- `phase0`: `self.right_list`. -/
def right_list (fs : FS) (d : DirCmp) : List String :=
  sortStrings (_filter (fs.listdir d.right) (d.hide ++ d.ignore))

/-- `phase1`: the dict `a = dict(zip(map(os.path.normcase, self.left_list),
self.left_list))`. -/
def phase1a (fs : FS) (d : DirCmp) : StrDict :=
  dictOf (List.zip ((left_list fs d).map fs.normcase) (left_list fs d))

/-- `phase1`: the dict `b` built from `self.right_list`. -/
def phase1b (fs : FS) (d : DirCmp) : StrDict :=
  dictOf (List.zip ((right_list fs d).map fs.normcase) (right_list fs d))

/-- `phase1`: `self.common = list(map(a.__getitem__,
filter(b.__contains__, a)))`. -/
def common (fs : FS) (d : DirCmp) : List String :=
  (((phase1a fs d).map Prod.fst).filter
      (fun k => dictContains (phase1b fs d) k)).map
    (fun k => dictGet (phase1a fs d) k)

/-- `phase1`: `self.left_only`. -/
def left_only (fs : FS) (d : DirCmp) : List String :=
  (((phase1a fs d).map Prod.fst).filter
      (fun k => !dictContains (phase1b fs d) k)).map
    (fun k => dictGet (phase1a fs d) k)

/-- `phase1`: `self.right_only`. -/
def right_only (fs : FS) (d : DirCmp) : List String :=
  (((phase1b fs d).map Prod.fst).filter
      (fun k => !dictContains (phase1a fs d) k)).map
    (fun k => dictGet (phase1b fs d) k)

/-- The body of the `phase2` loop for one common name `x`: stat both
joined paths; a stat failure on either side makes `x` funny; otherwise a
type mismatch is funny, both-directories goes to `common_dirs`,
both-regular to `common_files`, and anything else is funny.  The
accumulator is `(common_dirs, common_files, common_funny)` and the loop
appends at the end, as the Python lists do. -/
def phase2Step (fs : FS) (l r : String)
    (acc : List String × List String × List String) (x : String) :
    List String × List String × List String :=
  match fs.stat (joinPath l x), fs.stat (joinPath r x) with
  | some aStat, some bStat =>
    if aStat.ftype ≠ bStat.ftype then (acc.1, acc.2.1, acc.2.2 ++ [x])
    else if aStat.ftype = FType.directory then (acc.1 ++ [x], acc.2.1, acc.2.2)
    else if aStat.ftype = FType.regular then (acc.1, acc.2.1 ++ [x], acc.2.2)
    else (acc.1, acc.2.1, acc.2.2 ++ [x])
  | _, _ => (acc.1, acc.2.1, acc.2.2 ++ [x])

/-- `phase2`: classify the common names into
`(common_dirs, common_files, common_funny)`. -/
def phase2 (fs : FS) (d : DirCmp) : List String × List String × List String :=
  (common fs d).foldl (phase2Step fs d.left d.right) ([], [], [])

/-- `self.common_dirs`. -/
def common_dirs (fs : FS) (d : DirCmp) : List String := (phase2 fs d).1

/-- `self.common_files`. -/
def common_files (fs : FS) (d : DirCmp) : List String := (phase2 fs d).2.1

/-- `self.common_funny`. -/
def common_funny (fs : FS) (d : DirCmp) : List String := (phase2 fs d).2.2

/-- `_cmp(a, b, sh)`: `0` for equal, `1` for different, `2` for funny
(`OSError` caught); paired with the cache left by the call (`OSError`
paths leave the cache untouched, as the Python exception escapes before
the cache assignment). -/
def _cmp (fs : FS) (cache : Cache) (a b : String) (sh : Bool) :
    Nat × Cache :=
  match cmp fs cache a b sh with
  | .ok (r, c) => (if r then 0 else 1, c)
  | .error _ => (2, cache)

/-- The body of the `cmpfiles` loop for one name `x`:
`res[_cmp(ax, bx, shallow)].append(x)`, threading the module cache. -/
def cmpfilesStep (fs : FS) (a b : String) (shallow : Bool)
    (acc : (List String × List String × List String) × Cache) (x : String) :
    (List String × List String × List String) × Cache :=
  let res := acc.1
  let step := _cmp fs acc.2 (joinPath a x) (joinPath b x) shallow
  (if step.1 = 0 then (res.1 ++ [x], res.2.1, res.2.2)
   else if step.1 = 1 then (res.1, res.2.1 ++ [x], res.2.2)
   else (res.1, res.2.1, res.2.2 ++ [x]), step.2)

/-- `cmpfiles(a, b, common, shallow)`: partition `common` into
`(equal, different, funny)` by the result of `_cmp` on each joined pair,
threading the module cache through the loop. -/
def cmpfiles (fs : FS) (cache : Cache) (a b : String)
    (commonNames : List String) (shallow : Bool) :
    (List String × List String × List String) × Cache :=
  commonNames.foldl (cmpfilesStep fs a b shallow) (([], [], []), cache)

/-- `phase3`: `cmpfiles(self.left, self.right, self.common_files,
shallow=False)`. -/
def phase3 (fs : FS) (cache : Cache) (d : DirCmp) :
    (List String × List String × List String) × Cache :=
  cmpfiles fs cache d.left d.right (common_files fs d) false

/-- `self.same_files`. -/
def same_files (fs : FS) (cache : Cache) (d : DirCmp) : List String :=
  (phase3 fs cache d).1.1

/-- `self.diff_files`. -/
def diff_files (fs : FS) (cache : Cache) (d : DirCmp) : List String :=
  (phase3 fs cache d).1.2.1

/-- `self.funny_files`. -/
def funny_files (fs : FS) (cache : Cache) (d : DirCmp) : List String :=
  (phase3 fs cache d).1.2.2

end Filecmp

namespace Filecmp

/-! ### Lemmas: the chunked byte comparison decides list equality -/

theorem _do_cmp_eq_true_iff (c1 c2 : List Nat) :
    _do_cmp c1 c2 = true ↔ c1 = c2 := by
  have hbuf : BUFSIZE ≠ 0 := by decide
  induction c1, c2 using _do_cmp.induct with
  | case1 c1 c2 hne =>
    rw [_do_cmp, if_pos hne]
    constructor
    · intro h
      exact absurd h (by simp)
    · intro h
      exact absurd (by rw [h]) hne
  | case2 c1 c2 heq hnil =>
    rw [_do_cmp, if_neg (by simpa using heq), dif_pos hnil]
    have h1 : c1 = [] := by
      rcases List.take_eq_nil_iff.mp hnil with h | h
      · exact absurd h hbuf
      · exact h
    have heqt : c1.take BUFSIZE = c2.take BUFSIZE := not_not.mp heq
    have h2 : c2 = [] := by
      have ht : c2.take BUFSIZE = [] := by
        rw [← heqt]
        exact hnil
      rcases List.take_eq_nil_iff.mp ht with h | h
      · exact absurd h hbuf
      · exact h
    simp [h1, h2]
  | case3 c1 c2 heq hnil ih =>
    have heq' : c1.take BUFSIZE = c2.take BUFSIZE := not_not.mp heq
    rw [_do_cmp, if_neg heq, dif_neg hnil]
    constructor
    · intro h
      have hdrop := ih.mp h
      rw [← List.take_append_drop BUFSIZE c1, ← List.take_append_drop BUFSIZE c2,
        heq', hdrop]
    · intro h
      apply ih.mpr
      rw [h]

theorem _do_cmp_self (c : List Nat) : _do_cmp c c = true :=
  (_do_cmp_eq_true_iff c c).mpr rfl

/-! ### Lemmas: the branches of `cmp` -/

theorem cmp_stat_none_left (fs : FS) (cache : Cache) (f1 f2 : String)
    (sh : Bool) (h : fs.stat f1 = none) :
    cmp fs cache f1 f2 sh = .error .metadata := by
  cases h2 : fs.stat f2 <;> simp [cmp, h, h2]

theorem cmp_stat_none_right (fs : FS) (cache : Cache) (f1 f2 : String)
    (sh : Bool) (h : fs.stat f2 = none) :
    cmp fs cache f1 f2 sh = .error .metadata := by
  cases h1 : fs.stat f1 <;> simp [cmp, h, h1]

theorem cmp_not_regular (fs : FS) (cache : Cache) (f1 f2 : String) (sh : Bool)
    (st1 st2 : FStat) (h1 : fs.stat f1 = some st1) (h2 : fs.stat f2 = some st2)
    (h : st1.ftype ≠ FType.regular ∨ st2.ftype ≠ FType.regular) :
    cmp fs cache f1 f2 sh = .ok (false, cache) := by
  simp only [cmp, h1, h2, _sig]
  rw [if_pos h]

theorem cmp_shallow_sig_eq (fs : FS) (cache : Cache) (f1 f2 : String)
    (st1 st2 : FStat) (h1 : fs.stat f1 = some st1) (h2 : fs.stat f2 = some st2)
    (hr1 : st1.ftype = FType.regular) (hr2 : st2.ftype = FType.regular)
    (hs : _sig st1 = _sig st2) :
    cmp fs cache f1 f2 true = .ok (true, cache) := by
  simp only [cmp, h1, h2, _sig] at *
  rw [if_neg (by simp [hr1, hr2]), if_pos (by exact ⟨trivial, hs⟩)]

theorem cmp_size_ne (fs : FS) (cache : Cache) (f1 f2 : String) (sh : Bool)
    (st1 st2 : FStat) (h1 : fs.stat f1 = some st1) (h2 : fs.stat f2 = some st2)
    (hr1 : st1.ftype = FType.regular) (hr2 : st2.ftype = FType.regular)
    (hsh : ¬(sh = true ∧ _sig st1 = _sig st2)) (hsz : st1.size ≠ st2.size) :
    cmp fs cache f1 f2 sh = .ok (false, cache) := by
  simp only [cmp, h1, h2, _sig] at *
  rw [if_neg (by simp [hr1, hr2]), if_neg hsh, if_pos hsz]

theorem cmp_cache_hit (fs : FS) (cache : Cache) (f1 f2 : String) (sh : Bool)
    (st1 st2 : FStat) (o : Bool)
    (h1 : fs.stat f1 = some st1) (h2 : fs.stat f2 = some st2)
    (hr1 : st1.ftype = FType.regular) (hr2 : st2.ftype = FType.regular)
    (hsh : ¬(sh = true ∧ _sig st1 = _sig st2)) (hsz : st1.size = st2.size)
    (hget : cacheGet cache (f1, f2, _sig st1, _sig st2) = some o) :
    cmp fs cache f1 f2 sh = .ok (o, cache) := by
  simp only [cmp, h1, h2, _sig] at *
  rw [if_neg (by simp [hr1, hr2]), if_neg hsh, if_neg (by simpa using hsz)]
  simp only [hget]

theorem cmp_cache_miss (fs : FS) (cache : Cache) (f1 f2 : String) (sh : Bool)
    (st1 st2 : FStat) (c1 c2 : List Nat)
    (h1 : fs.stat f1 = some st1) (h2 : fs.stat f2 = some st2)
    (hr1 : st1.ftype = FType.regular) (hr2 : st2.ftype = FType.regular)
    (hsh : ¬(sh = true ∧ _sig st1 = _sig st2)) (hsz : st1.size = st2.size)
    (hget : cacheGet cache (f1, f2, _sig st1, _sig st2) = none)
    (hc1 : fs.read f1 = some c1) (hc2 : fs.read f2 = some c2) :
    cmp fs cache f1 f2 sh = .ok (_do_cmp c1 c2,
      cacheSet (if 100 < cache.length then [] else cache)
        (f1, f2, _sig st1, _sig st2) (_do_cmp c1 c2)) := by
  simp only [cmp, h1, h2, _sig] at *
  rw [if_neg (by simp [hr1, hr2]), if_neg hsh, if_neg (by simpa using hsz)]
  simp only [hget, hc1, hc2]

theorem cmp_cache_miss_no_read (fs : FS) (cache : Cache) (f1 f2 : String)
    (sh : Bool) (st1 st2 : FStat)
    (h1 : fs.stat f1 = some st1) (h2 : fs.stat f2 = some st2)
    (hr1 : st1.ftype = FType.regular) (hr2 : st2.ftype = FType.regular)
    (hsh : ¬(sh = true ∧ _sig st1 = _sig st2)) (hsz : st1.size = st2.size)
    (hget : cacheGet cache (f1, f2, _sig st1, _sig st2) = none)
    (hr : fs.read f1 = none ∨ fs.read f2 = none) :
    cmp fs cache f1 f2 sh = .error .readFail := by
  simp only [cmp, h1, h2, _sig] at *
  rw [if_neg (by simp [hr1, hr2]), if_neg hsh, if_neg (by simpa using hsz)]
  simp only [hget]
  rcases hr with h | h <;> rw [h] <;> cases hx : fs.read f2 <;>
    cases hy : fs.read f1 <;> simp_all

end Filecmp

namespace Filecmp

/-! ### Lemmas: the module cache -/

theorem cacheGet_nil (k : CacheKey) : cacheGet [] k = none := rfl

theorem mem_cacheSet (c : Cache) (k : CacheKey) (v : Bool)
    (p : CacheKey × Bool) (hp : p ∈ cacheSet c k v) : p ∈ c ∨ p = (k, v) := by
  unfold cacheSet at hp
  split at hp
  · rcases List.mem_map.mp hp with ⟨q, hq, hmap⟩
    by_cases hqk : q.1 = k
    · right
      rw [← hmap, if_pos hqk]
    · left
      rw [← hmap, if_neg hqk]
      exact hq
  · rcases List.mem_append.mp hp with h | h
    · exact Or.inl h
    · right
      simpa using h

theorem cacheSet_cons_ne (p : CacheKey × Bool) (c : Cache) (k : CacheKey)
    (v : Bool) (hpk : p.1 ≠ k) :
    cacheSet (p :: c) k v = p :: cacheSet c k v := by
  by_cases hc : c.any (fun q => decide (q.1 = k)) <;>
    simp [cacheSet, hpk, hc]

theorem cacheGet_cacheSet_self (c : Cache) (k : CacheKey) (v : Bool) :
    cacheGet (cacheSet c k v) k = some v := by
  induction c with
  | nil =>
    simp [cacheSet, cacheGet]
  | cons p c ih =>
    by_cases hpk : p.1 = k
    · simp [cacheSet, cacheGet, hpk]
    · rw [cacheSet_cons_ne p c k v hpk]
      have h2 : cacheGet (p :: cacheSet c k v) k = cacheGet (cacheSet c k v) k := by
        simp [cacheGet, List.find?, hpk]
      rw [h2, ih]

theorem cacheGet_some_mem (c : Cache) (k : CacheKey) (o : Bool)
    (h : cacheGet c k = some o) : (k, o) ∈ c := by
  unfold cacheGet at h
  cases hf : c.find? (fun p => decide (p.1 = k)) with
  | none =>
    rw [hf] at h
    simp at h
  | some p =>
    rw [hf] at h
    simp only [Option.map_some'] at h
    have hp := List.find?_some hf
    have hmem : p ∈ c := List.mem_of_find?_eq_some hf
    have hk : p.1 = k := by simpa using hp
    have : p = (k, o) := by
      cases p with
      | mk a b =>
        simp only at hk
        simp only [Option.some.injEq] at h
        rw [hk]
        rw [h]
    rw [← this]
    exact hmem

/-- Consistency of a cache state with the (immutable) filesystem: every
entry whose stored signature pair matches the current stat results records
exactly the full byte comparison of the current contents, and those
contents are readable.  Caches reachable by running the module against
`fs` starting from the empty cache satisfy this. -/
def CacheConsistent (fs : FS) (cache : Cache) : Prop :=
  ∀ f1 f2 s1 s2 o st1 st2, ((f1, f2, s1, s2), o) ∈ cache →
    fs.stat f1 = some st1 → fs.stat f2 = some st2 →
    _sig st1 = s1 → _sig st2 = s2 →
    ∃ c1 c2, fs.read f1 = some c1 ∧ fs.read f2 = some c2 ∧ o = _do_cmp c1 c2

theorem cacheConsistent_nil (fs : FS) : CacheConsistent fs [] := by
  intro f1 f2 s1 s2 o st1 st2 h
  simp at h

end Filecmp

namespace Filecmp

/-- Inversion for successful `cmp` calls: either the call returned before
touching the cache contents (leaving the cache unchanged) or it was a full
cache-miss comparison, in which case all the branch conditions and the
exact new cache are recovered. -/
theorem cmp_ok_inv (fs : FS) (cache : Cache) (f1 f2 : String) (sh : Bool)
    (r : Bool) (c' : Cache) (h : cmp fs cache f1 f2 sh = .ok (r, c')) :
    c' = cache ∨
    ∃ st1 st2 c1 c2, fs.stat f1 = some st1 ∧ fs.stat f2 = some st2 ∧
      st1.ftype = FType.regular ∧ st2.ftype = FType.regular ∧
      ¬(sh = true ∧ _sig st1 = _sig st2) ∧ st1.size = st2.size ∧
      cacheGet cache (f1, f2, _sig st1, _sig st2) = none ∧
      fs.read f1 = some c1 ∧ fs.read f2 = some c2 ∧ r = _do_cmp c1 c2 ∧
      c' = cacheSet (if 100 < cache.length then [] else cache)
        (f1, f2, _sig st1, _sig st2) r := by
  cases h1 : fs.stat f1 with
  | none =>
    rw [cmp_stat_none_left fs cache f1 f2 sh h1] at h
    exact absurd h (by simp)
  | some st1 =>
  cases h2 : fs.stat f2 with
  | none =>
    rw [cmp_stat_none_right fs cache f1 f2 sh h2] at h
    exact absurd h (by simp)
  | some st2 =>
  by_cases hreg : st1.ftype = FType.regular ∧ st2.ftype = FType.regular
  · obtain ⟨hr1, hr2⟩ := hreg
    by_cases hsh : sh = true ∧ _sig st1 = _sig st2
    · obtain ⟨hsh1, hsh2⟩ := hsh
      subst hsh1
      rw [cmp_shallow_sig_eq fs cache f1 f2 st1 st2 h1 h2 hr1 hr2 hsh2] at h
      simp only [Except.ok.injEq, Prod.mk.injEq] at h
      exact Or.inl h.2.symm
    · by_cases hsz : st1.size = st2.size
      · cases hget : cacheGet cache (f1, f2, _sig st1, _sig st2) with
        | some o =>
          rw [cmp_cache_hit fs cache f1 f2 sh st1 st2 o h1 h2 hr1 hr2 hsh hsz
            hget] at h
          simp only [Except.ok.injEq, Prod.mk.injEq] at h
          exact Or.inl h.2.symm
        | none =>
          cases hc1 : fs.read f1 with
          | none =>
            rw [cmp_cache_miss_no_read fs cache f1 f2 sh st1 st2 h1 h2 hr1 hr2
              hsh hsz hget (Or.inl hc1)] at h
            exact absurd h (by simp)
          | some c1 =>
            cases hc2 : fs.read f2 with
            | none =>
              rw [cmp_cache_miss_no_read fs cache f1 f2 sh st1 st2 h1 h2 hr1
                hr2 hsh hsz hget (Or.inr hc2)] at h
              exact absurd h (by simp)
            | some c2 =>
              rw [cmp_cache_miss fs cache f1 f2 sh st1 st2 c1 c2 h1 h2 hr1 hr2
                hsh hsz hget hc1 hc2] at h
              simp only [Except.ok.injEq, Prod.mk.injEq] at h
              refine Or.inr ⟨st1, st2, c1, c2, rfl, rfl, hr1, hr2, hsh, hsz,
                hget, rfl, rfl, h.1.symm, ?_⟩
              rw [← h.2, h.1]
      · rw [cmp_size_ne fs cache f1 f2 sh st1 st2 h1 h2 hr1 hr2 hsh hsz] at h
        simp only [Except.ok.injEq, Prod.mk.injEq] at h
        exact Or.inl h.2.symm
  · have hor : st1.ftype ≠ FType.regular ∨ st2.ftype ≠ FType.regular := by
      rcases not_and_or.mp hreg with h | h
      · exact Or.inl h
      · exact Or.inr h
    rw [cmp_not_regular fs cache f1 f2 sh st1 st2 h1 h2 hor] at h
    simp only [Except.ok.injEq, Prod.mk.injEq] at h
    exact Or.inl h.2.symm

/-- Calling `cmp` a second time on an unchanged filesystem returns the
same outcome and leaves the cache exactly as the first call left it. -/
theorem cmp_ok_idempotent (fs : FS) (cache : Cache) (f1 f2 : String)
    (sh : Bool) (r : Bool) (c' : Cache)
    (h : cmp fs cache f1 f2 sh = .ok (r, c')) :
    cmp fs c' f1 f2 sh = .ok (r, c') := by
  rcases cmp_ok_inv fs cache f1 f2 sh r c' h with hc | ⟨st1, st2, c1, c2, h1,
    h2, hr1, hr2, hsh, hsz, hget, hc1, hc2, hr, hc'⟩
  · rw [hc]
    rw [hc] at h
    exact h
  · subst hr
    have hself : cacheGet c' (f1, f2, _sig st1, _sig st2) =
        some (_do_cmp c1 c2) := by
      rw [hc']
      exact cacheGet_cacheSet_self _ _ _
    exact cmp_cache_hit fs c' f1 f2 sh st1 st2 (_do_cmp c1 c2) h1 h2 hr1 hr2
      hsh hsz hself

theorem cacheSet_length (c : Cache) (k : CacheKey) (v : Bool) :
    (cacheSet c k v).length ≤ c.length + 1 := by
  unfold cacheSet
  split
  · simp
  · simp

/-- The cache stays bounded: after any successful `cmp` call the cache has
at most `max (size before) 101` entries (on the full-comparison path the
cache is cleared before the store whenever it holds more than 100
entries, so it ends with at most 101). -/
theorem cmp_ok_cache_bound (fs : FS) (cache : Cache) (f1 f2 : String)
    (sh : Bool) (r : Bool) (c' : Cache)
    (h : cmp fs cache f1 f2 sh = .ok (r, c')) :
    c'.length ≤ max cache.length 101 := by
  rcases cmp_ok_inv fs cache f1 f2 sh r c' h with hc | ⟨st1, st2, c1, c2, h1,
    h2, hr1, hr2, hsh, hsz, hget, hc1, hc2, hr, hc'⟩
  · rw [hc]
    exact le_max_left _ _
  · rw [hc']
    by_cases hlen : 100 < cache.length
    · rw [if_pos hlen]
      have := cacheSet_length ([] : Cache) (f1, f2, _sig st1, _sig st2) r
      simp at this
      omega
    · rw [if_neg hlen]
      have := cacheSet_length cache (f1, f2, _sig st1, _sig st2) r
      simp at hlen
      omega

/-- Success of `cmp` preserves cache consistency. -/
theorem cmp_ok_preserves_consistent (fs : FS) (cache : Cache) (f1 f2 : String)
    (sh : Bool) (r : Bool) (c' : Cache) (hcc : CacheConsistent fs cache)
    (h : cmp fs cache f1 f2 sh = .ok (r, c')) : CacheConsistent fs c' := by
  rcases cmp_ok_inv fs cache f1 f2 sh r c' h with hc | ⟨st1, st2, c1, c2, h1,
    h2, hr1, hr2, hsh, hsz, hget, hc1, hc2, hr, hc'⟩
  · rw [hc]
    exact hcc
  · intro g1 g2 s1 s2 o t1 t2 hmem hg1 hg2 hs1 hs2
    rw [hc'] at hmem
    rcases mem_cacheSet _ _ _ _ hmem with hm | hm
    · have hmc : ((g1, g2, s1, s2), o) ∈ cache := by
        by_cases hlen : 100 < cache.length
        · rw [if_pos hlen] at hm
          simp at hm
        · rw [if_neg hlen] at hm
          exact hm
      exact hcc g1 g2 s1 s2 o t1 t2 hmc hg1 hg2 hs1 hs2
    · simp only [Prod.mk.injEq] at hm
      obtain ⟨⟨hgf1, hgf2, hss1, hss2⟩, ho⟩ := hm
      subst hgf1
      subst hgf2
      refine ⟨c1, c2, hc1, hc2, ?_⟩
      rw [ho, hr]

/-- With a consistent cache, the boolean outcome of `cmp` is exactly the
outcome computed from scratch (empty cache): the cache is invisible in the
result. -/
theorem cmp_consistent_eq_scratch (fs : FS) (cache : Cache) (f1 f2 : String)
    (sh : Bool) (hcc : CacheConsistent fs cache) :
    cmpResult fs cache f1 f2 sh = cmpResult fs [] f1 f2 sh := by
  unfold cmpResult
  cases h1 : fs.stat f1 with
  | none =>
    rw [cmp_stat_none_left fs cache f1 f2 sh h1,
      cmp_stat_none_left fs [] f1 f2 sh h1]
  | some st1 =>
  cases h2 : fs.stat f2 with
  | none =>
    rw [cmp_stat_none_right fs cache f1 f2 sh h2,
      cmp_stat_none_right fs [] f1 f2 sh h2]
  | some st2 =>
  by_cases hreg : st1.ftype = FType.regular ∧ st2.ftype = FType.regular
  · obtain ⟨hr1, hr2⟩ := hreg
    by_cases hsh : sh = true ∧ _sig st1 = _sig st2
    · obtain ⟨hsh1, hsh2⟩ := hsh
      subst hsh1
      rw [cmp_shallow_sig_eq fs cache f1 f2 st1 st2 h1 h2 hr1 hr2 hsh2,
        cmp_shallow_sig_eq fs [] f1 f2 st1 st2 h1 h2 hr1 hr2 hsh2]
      rfl
    · by_cases hsz : st1.size = st2.size
      · cases hget : cacheGet cache (f1, f2, _sig st1, _sig st2) with
        | some o =>
          rw [cmp_cache_hit fs cache f1 f2 sh st1 st2 o h1 h2 hr1 hr2 hsh hsz
            hget]
          have hmem := cacheGet_some_mem cache _ o hget
          obtain ⟨c1, c2, hc1, hc2, ho⟩ :=
            hcc f1 f2 (_sig st1) (_sig st2) o st1 st2 hmem h1 h2 rfl rfl
          rw [cmp_cache_miss fs [] f1 f2 sh st1 st2 c1 c2 h1 h2 hr1 hr2 hsh
            hsz (cacheGet_nil _) hc1 hc2, ho]
          rfl
        | none =>
          cases hc1 : fs.read f1 with
          | none =>
            rw [cmp_cache_miss_no_read fs cache f1 f2 sh st1 st2 h1 h2 hr1 hr2
              hsh hsz hget (Or.inl hc1),
              cmp_cache_miss_no_read fs [] f1 f2 sh st1 st2 h1 h2 hr1 hr2
              hsh hsz (cacheGet_nil _) (Or.inl hc1)]
          | some c1 =>
            cases hc2 : fs.read f2 with
            | none =>
              rw [cmp_cache_miss_no_read fs cache f1 f2 sh st1 st2 h1 h2 hr1
                hr2 hsh hsz hget (Or.inr hc2),
                cmp_cache_miss_no_read fs [] f1 f2 sh st1 st2 h1 h2 hr1
                hr2 hsh hsz (cacheGet_nil _) (Or.inr hc2)]
            | some c2 =>
              rw [cmp_cache_miss fs cache f1 f2 sh st1 st2 c1 c2 h1 h2 hr1 hr2
                hsh hsz hget hc1 hc2,
                cmp_cache_miss fs [] f1 f2 sh st1 st2 c1 c2 h1 h2 hr1 hr2
                hsh hsz (cacheGet_nil _) hc1 hc2]
              rfl
      · rw [cmp_size_ne fs cache f1 f2 sh st1 st2 h1 h2 hr1 hr2 hsh hsz,
          cmp_size_ne fs [] f1 f2 sh st1 st2 h1 h2 hr1 hr2 hsh hsz]
        rfl
  · have hor : st1.ftype ≠ FType.regular ∨ st2.ftype ≠ FType.regular := by
      rcases not_and_or.mp hreg with h | h
      · exact Or.inl h
      · exact Or.inr h
    rw [cmp_not_regular fs cache f1 f2 sh st1 st2 h1 h2 hor,
      cmp_not_regular fs [] f1 f2 sh st1 st2 h1 h2 hor]
    rfl

end Filecmp

namespace Filecmp

/-- Replace the content-read function of a filesystem, leaving all
metadata untouched: quantifying a statement over `withRead fs g` for
every `g` expresses that the computation never reads file content. -/
def withRead (fs : FS) (g : String → Option (List Nat)) : FS :=
  ⟨fs.listdir, fs.stat, g, fs.normcase⟩

/-- C3: with `shallow=False`, for two regular files: if the signature
sizes differ, `cmp` returns `False` without reading any content (the
result is the same for every possible content-read function); otherwise,
on a consistent cache and readable contents, `cmp` returns exactly the
chunked stream comparison `_do_cmp`, which is `True` precisely when the
byte lists are equal (a chunk mismatch or one stream ending early gives
`False`). -/
theorem C3_deep_compare (fs : FS) (cache : Cache) (f1 f2 : String)
    (st1 st2 : FStat)
    (h1 : fs.stat f1 = some st1) (h2 : fs.stat f2 = some st2)
    (hr1 : st1.ftype = FType.regular) (hr2 : st2.ftype = FType.regular)
    (hcc : CacheConsistent fs cache) :
    (st1.size ≠ st2.size →
      ∀ g : String → Option (List Nat),
        cmp (withRead fs g) cache f1 f2 false = .ok (false, cache)) ∧
    (∀ c1 c2, st1.size = st2.size →
      fs.read f1 = some c1 → fs.read f2 = some c2 →
      cmpResult fs cache f1 f2 false = .ok (_do_cmp c1 c2) ∧
        (_do_cmp c1 c2 = true ↔ c1 = c2)) := by
  constructor
  · intro hsz g
    exact cmp_size_ne (withRead fs g) cache f1 f2 false st1 st2 h1 h2 hr1 hr2
      (by simp) hsz
  · intro c1 c2 hsz hc1 hc2
    refine ⟨?_, _do_cmp_eq_true_iff c1 c2⟩
    rw [cmp_consistent_eq_scratch fs cache f1 f2 false hcc]
    unfold cmpResult
    rw [cmp_cache_miss fs [] f1 f2 false st1 st2 c1 c2 h1 h2 hr1 hr2 (by simp)
      hsz (cacheGet_nil _) hc1 hc2]
    rfl

/-- A concrete filesystem used by the witnesses: `a`, `b`, `e` are regular
files of size 2 (`a` and `b` with different mtimes and contents, `b` and
`e` with identical signatures but different contents), `c` is a regular
file of size 3, `d` is a directory, and every other path fails to stat. -/
def fsW : FS :=
  ⟨fun _ => [],
   fun p =>
     if p = "a" then some ⟨FType.regular, 2, 0⟩
     else if p = "b" then some ⟨FType.regular, 2, 5⟩
     else if p = "c" then some ⟨FType.regular, 3, 0⟩
     else if p = "d" then some ⟨FType.directory, 0, 0⟩
     else if p = "e" then some ⟨FType.regular, 2, 5⟩
     else none,
   fun p =>
     if p = "a" then some [0, 1]
     else if p = "b" then some [0, 2]
     else if p = "e" then some [0, 1]
     else none,
   fun s => s⟩

theorem C3_deep_compare_witness :
    (∀ g : String → Option (List Nat),
      cmp (withRead fsW g) [] "a" "c" false = .ok (false, [])) ∧
    cmpResult fsW [] "a" "b" false = .ok (_do_cmp [0, 1] [0, 2]) ∧
    (_do_cmp [0, 1] [0, 2] = true ↔ [0, 1] = [0, 2]) := by
  have h := C3_deep_compare fsW [] "a" "c" ⟨FType.regular, 2, 0⟩
    ⟨FType.regular, 3, 0⟩ (by decide) (by decide) rfl rfl
    (cacheConsistent_nil fsW)
  have h2 := C3_deep_compare fsW [] "a" "b" ⟨FType.regular, 2, 0⟩
    ⟨FType.regular, 2, 5⟩ (by decide) (by decide) rfl rfl
    (cacheConsistent_nil fsW)
  refine ⟨h.1 (by decide), ?_, ?_⟩
  · exact (h2.2 [0, 1] [0, 2] rfl (by decide) (by decide)).1
  · exact (h2.2 [0, 1] [0, 2] rfl (by decide) (by decide)).2

/-- C4: if `shallow` is true and the two signatures are identical, `cmp`
returns `True` immediately, without reading content (the result is the
same for every content-read function) — even when the byte contents
differ; with `shallow=False` that same pair compares `False` (from an
empty cache). -/
theorem C4_shallow_heuristic (fs : FS) (cache : Cache) (f1 f2 : String)
    (st1 st2 : FStat)
    (h1 : fs.stat f1 = some st1) (h2 : fs.stat f2 = some st2)
    (hr1 : st1.ftype = FType.regular) (hr2 : st2.ftype = FType.regular)
    (hs : _sig st1 = _sig st2) :
    (∀ g : String → Option (List Nat),
      cmp (withRead fs g) cache f1 f2 true = .ok (true, cache)) ∧
    (∀ c1 c2, fs.read f1 = some c1 → fs.read f2 = some c2 → c1 ≠ c2 →
      cmpResult fs [] f1 f2 false = .ok false) := by
  constructor
  · intro g
    exact cmp_shallow_sig_eq (withRead fs g) cache f1 f2 st1 st2 h1 h2 hr1
      hr2 hs
  · intro c1 c2 hc1 hc2 hne
    have hsz : st1.size = st2.size := by
      have := congrArg (fun q => q.2.1) hs
      simpa [_sig] using this
    unfold cmpResult
    rw [cmp_cache_miss fs [] f1 f2 false st1 st2 c1 c2 h1 h2 hr1 hr2 (by simp)
      hsz (cacheGet_nil _) hc1 hc2]
    have hdo : _do_cmp c1 c2 = false := by
      rcases Bool.eq_false_or_eq_true (_do_cmp c1 c2) with h | h
      · exact absurd ((_do_cmp_eq_true_iff c1 c2).mp h) hne
      · exact h
    rw [hdo]
    rfl

theorem C4_shallow_heuristic_witness :
    cmp fsW [] "b" "e" true = .ok (true, []) ∧
    cmpResult fsW [] "b" "e" false = .ok false := by
  have h := C4_shallow_heuristic fsW [] "b" "e" ⟨FType.regular, 2, 5⟩
    ⟨FType.regular, 2, 5⟩ (by decide) (by decide) rfl rfl rfl
  exact ⟨h.1 fsW.read, h.2 [0, 2] [0, 1] (by decide) (by decide) (by decide)⟩

/-- C5: a pair where either side's signature type is not Regular compares
`False` (for either value of `shallow`, cache untouched); a pair where
either side cannot be stat'd makes `cmp` fail with the metadata error,
propagated to the caller. -/
theorem C5_non_regular_and_stat_fail (fs : FS) (cache : Cache)
    (f1 f2 : String) (sh : Bool) :
    (∀ st1 st2, fs.stat f1 = some st1 → fs.stat f2 = some st2 →
      (st1.ftype ≠ FType.regular ∨ st2.ftype ≠ FType.regular) →
      cmp fs cache f1 f2 sh = .ok (false, cache)) ∧
    ((fs.stat f1 = none ∨ fs.stat f2 = none) →
      cmp fs cache f1 f2 sh = .error .metadata) := by
  constructor
  · intro st1 st2 h1 h2 hor
    exact cmp_not_regular fs cache f1 f2 sh st1 st2 h1 h2 hor
  · intro hor
    rcases hor with h | h
    · exact cmp_stat_none_left fs cache f1 f2 sh h
    · exact cmp_stat_none_right fs cache f1 f2 sh h

theorem C5_non_regular_and_stat_fail_witness :
    cmp fsW [] "d" "a" true = .ok (false, []) ∧
    cmp fsW [] "missing" "a" true = .error .metadata :=
  ⟨(C5_non_regular_and_stat_fail fsW [] "d" "a" true).1
      ⟨FType.directory, 0, 0⟩ ⟨FType.regular, 2, 0⟩ (by decide) (by decide)
      (Or.inl (by decide)),
    (C5_non_regular_and_stat_fail fsW [] "missing" "a" true).2
      (Or.inl (by decide))⟩

end Filecmp

namespace Filecmp

theorem _do_cmp_eq_false_iff (c1 c2 : List Nat) :
    _do_cmp c1 c2 = false ↔ c1 ≠ c2 := by
  constructor
  · intro h hc
    subst hc
    rw [_do_cmp_self] at h
    exact absurd h (by simp)
  · intro h
    rcases Bool.eq_false_or_eq_true (_do_cmp c1 c2) with hb | hb
    · exact absurd ((_do_cmp_eq_true_iff c1 c2).mp hb) h
    · exact hb

/-- The cache update order claimed by the spec for C6, as its words say:
store the result first, then drop the whole cache if its size exceeds 100
entries.  Used only to compare against the code's actual order. -/
def specStoreThenDrop (cache : Cache) (k : CacheKey) (v : Bool) : Cache :=
  if 100 < (cacheSet cache k v).length then [] else cacheSet cache k v

/-- A reachable cache with 101 entries (100 entries plus one more insert
never triggers the clear, which fires only above 100). -/
def cache101 : Cache :=
  List.replicate 101
    ((("z", "z", (FType.regular, 1, 0), (FType.regular, 1, 0)) : CacheKey),
      true)

/-- The cache key of the `fsW` pair `("a", "b")`. -/
def keyAB : CacheKey :=
  ("a", "b", (FType.regular, 2, 0), (FType.regular, 2, 5))

/-- C6 counterexample: on a miss with a 101-entry cache the code clears
first and then stores, ending with exactly the one new entry, while the
claimed store-then-drop order would end with the empty cache. -/
theorem C6_counterexample :
    cmp fsW cache101 "a" "b" false = .ok (false, [(keyAB, false)]) ∧
    specStoreThenDrop cache101 keyAB false = [] ∧
    [(keyAB, false)] ≠ ([] : Cache) := by
  have hdo : _do_cmp [0, 1] [0, 2] = false :=
    (_do_cmp_eq_false_iff [0, 1] [0, 2]).mpr (by decide)
  refine ⟨?_, by decide, by decide⟩
  rw [cmp_cache_miss fsW cache101 "a" "b" false ⟨FType.regular, 2, 0⟩
    ⟨FType.regular, 2, 5⟩ [0, 1] [0, 2] (by decide) (by decide) rfl rfl
    (by simp) rfl (by decide) (by decide) (by decide), hdo]
  rw [if_pos (by decide : 100 < cache101.length)]
  rfl

/-- C6 amended: on a full-comparison cache miss the cache is dropped
BEFORE the new result is stored (whenever it already holds more than 100
entries), and consequently the cache size stays at most 101 after every
successful `cmp` call, starting from any cache of at most 101 entries. -/
theorem C6_amended_cache_policy (fs : FS) (cache : Cache) (f1 f2 : String)
    (sh : Bool) (hlen : cache.length ≤ 101) :
    (∀ r c', cmp fs cache f1 f2 sh = .ok (r, c') → c'.length ≤ 101) ∧
    (∀ st1 st2 c1 c2, fs.stat f1 = some st1 → fs.stat f2 = some st2 →
      st1.ftype = FType.regular → st2.ftype = FType.regular →
      ¬(sh = true ∧ _sig st1 = _sig st2) → st1.size = st2.size →
      cacheGet cache (f1, f2, _sig st1, _sig st2) = none →
      fs.read f1 = some c1 → fs.read f2 = some c2 →
      cmp fs cache f1 f2 sh = .ok (_do_cmp c1 c2,
        cacheSet (if 100 < cache.length then [] else cache)
          (f1, f2, _sig st1, _sig st2) (_do_cmp c1 c2))) := by
  constructor
  · intro r c' h
    have hb := cmp_ok_cache_bound fs cache f1 f2 sh r c' h
    have hm : max cache.length 101 ≤ 101 := max_le hlen (le_refl _)
    exact le_trans hb hm
  · intro st1 st2 c1 c2 h1 h2 hr1 hr2 hsh hsz hget hc1 hc2
    exact cmp_cache_miss fs cache f1 f2 sh st1 st2 c1 c2 h1 h2 hr1 hr2 hsh
      hsz hget hc1 hc2

theorem C6_amended_cache_policy_witness :
    cmp fsW [] "a" "b" false = .ok (_do_cmp [0, 1] [0, 2],
      cacheSet (if 100 < ([] : Cache).length then [] else [])
        ("a", "b", _sig ⟨FType.regular, 2, 0⟩, _sig ⟨FType.regular, 2, 5⟩)
        (_do_cmp [0, 1] [0, 2])) :=
  (C6_amended_cache_policy fsW [] "a" "b" false (by decide)).2
    ⟨FType.regular, 2, 0⟩ ⟨FType.regular, 2, 5⟩ [0, 1] [0, 2] (by decide)
    (by decide) rfl rfl (by simp) rfl (by decide) (by decide) (by decide)

/-- C8: with a consistent cache the boolean outcome of `cmp` is exactly
the outcome recomputed from scratch (empty cache); a second call on the
unchanged filesystem returns the identical result and leaves the cache
unchanged; and success preserves consistency — so the cache, including
its reset behaviour, never changes any observable comparison result. -/
theorem C8_cache_transparent (fs : FS) (cache : Cache) (f1 f2 : String)
    (sh : Bool) (hcc : CacheConsistent fs cache) :
    cmpResult fs cache f1 f2 sh = cmpResult fs [] f1 f2 sh ∧
    (∀ r c', cmp fs cache f1 f2 sh = .ok (r, c') →
      cmp fs c' f1 f2 sh = .ok (r, c') ∧ CacheConsistent fs c') := by
  refine ⟨cmp_consistent_eq_scratch fs cache f1 f2 sh hcc, ?_⟩
  intro r c' h
  exact ⟨cmp_ok_idempotent fs cache f1 f2 sh r c' h,
    cmp_ok_preserves_consistent fs cache f1 f2 sh r c' hcc h⟩

theorem C8_cache_transparent_witness :
    cmpResult fsW [] "b" "e" true = cmpResult fsW [] "b" "e" true ∧
    cmp fsW [] "b" "e" true = .ok (true, []) := by
  have h := C8_cache_transparent fsW [] "b" "e" true (cacheConsistent_nil fsW)
  have hcall : cmp fsW [] "b" "e" true = .ok (true, []) :=
    cmp_shallow_sig_eq fsW [] "b" "e" ⟨FType.regular, 2, 5⟩
      ⟨FType.regular, 2, 5⟩ (by decide) (by decide) rfl rfl rfl
  exact ⟨h.1, (h.2 true [] hcall).1⟩

end Filecmp

namespace Filecmp

/-! ### Lemmas: `_cmp` and `cmpfiles` -/

theorem _cmp_code_cases (fs : FS) (cache : Cache) (a b : String) (sh : Bool) :
    (_cmp fs cache a b sh).1 = 0 ∨ (_cmp fs cache a b sh).1 = 1 ∨
      (_cmp fs cache a b sh).1 = 2 := by
  unfold _cmp
  cases cmp fs cache a b sh with
  | ok p =>
    rcases p with ⟨r, c'⟩
    cases r <;> simp
  | error e => simp

theorem _cmp_code_iff (fs : FS) (cache : Cache) (a b : String) (sh : Bool) :
    ((_cmp fs cache a b sh).1 = 0 ↔ cmpResult fs cache a b sh = .ok true) ∧
    ((_cmp fs cache a b sh).1 = 1 ↔ cmpResult fs cache a b sh = .ok false) ∧
    ((_cmp fs cache a b sh).1 = 2 ↔
      ∃ e, cmpResult fs cache a b sh = .error e) := by
  unfold _cmp cmpResult
  cases cmp fs cache a b sh with
  | ok p =>
    rcases p with ⟨r, c'⟩
    cases r <;> simp [Except.map]
  | error e => simp [Except.map]

theorem _cmp_consistent (fs : FS) (cache : Cache) (a b : String) (sh : Bool)
    (hcc : CacheConsistent fs cache) :
    (_cmp fs cache a b sh).1 = (_cmp fs [] a b sh).1 ∧
    CacheConsistent fs (_cmp fs cache a b sh).2 := by
  have hres := cmp_consistent_eq_scratch fs cache a b sh hcc
  unfold cmpResult at hres
  unfold _cmp
  cases hc : cmp fs cache a b sh with
  | ok p =>
    rcases p with ⟨r, c'⟩
    rw [hc] at hres
    cases hs : cmp fs [] a b sh with
    | ok q =>
      rcases q with ⟨r0, c0⟩
      rw [hs] at hres
      have hr : r = r0 := by simpa [Except.map] using hres
      subst hr
      exact ⟨rfl, cmp_ok_preserves_consistent fs cache a b sh r c' hcc hc⟩
    | error e =>
      rw [hs] at hres
      simp [Except.map] at hres
  | error e =>
    rw [hc] at hres
    cases hs : cmp fs [] a b sh with
    | ok q =>
      rw [hs] at hres
      simp [Except.map] at hres
    | error e0 =>
      exact ⟨rfl, hcc⟩

/-- The `cmpfiles` loop, for any starting accumulator: each input name is
appended (in order) to the output list selected by its scratch comparison
code, and the threaded cache stays consistent. -/
theorem cmpfiles_foldl_spec (fs : FS) (a b : String) (sh : Bool) :
    ∀ (names : List String) (cache : Cache)
      (sdf : List String × List String × List String),
    CacheConsistent fs cache →
    ∃ c', List.foldl (cmpfilesStep fs a b sh) (sdf, cache) names =
      ((sdf.1 ++ names.filter
          (fun x => (_cmp fs [] (joinPath a x) (joinPath b x) sh).1 == 0),
        sdf.2.1 ++ names.filter
          (fun x => (_cmp fs [] (joinPath a x) (joinPath b x) sh).1 == 1),
        sdf.2.2 ++ names.filter
          (fun x => (_cmp fs [] (joinPath a x) (joinPath b x) sh).1 == 2)),
        c') ∧
      CacheConsistent fs c' := by
  intro names
  induction names with
  | nil =>
    intro cache sdf hcc
    exact ⟨cache, by simp, hcc⟩
  | cons x rest ih =>
    intro cache sdf hcc
    obtain ⟨hcode, hcons⟩ :=
      _cmp_consistent fs cache (joinPath a x) (joinPath b x) sh hcc
    rw [List.foldl_cons]
    rcases _cmp_code_cases fs [] (joinPath a x) (joinPath b x) sh with
      h0 | h1 | h2
    · have hac : (_cmp fs cache (joinPath a x) (joinPath b x) sh).1 = 0 := by
        rw [hcode, h0]
      have hstep : cmpfilesStep fs a b sh (sdf, cache) x =
          ((sdf.1 ++ [x], sdf.2.1, sdf.2.2),
            (_cmp fs cache (joinPath a x) (joinPath b x) sh).2) := by
        simp [cmpfilesStep, hac]
      rw [hstep]
      obtain ⟨c', hfold, hc'⟩ :=
        ih ((_cmp fs cache (joinPath a x) (joinPath b x) sh).2)
          (sdf.1 ++ [x], sdf.2.1, sdf.2.2) hcons
      refine ⟨c', ?_, hc'⟩
      rw [hfold]
      simp [List.filter_cons, h0]
    · have hac : (_cmp fs cache (joinPath a x) (joinPath b x) sh).1 = 1 := by
        rw [hcode, h1]
      have hstep : cmpfilesStep fs a b sh (sdf, cache) x =
          ((sdf.1, sdf.2.1 ++ [x], sdf.2.2),
            (_cmp fs cache (joinPath a x) (joinPath b x) sh).2) := by
        simp [cmpfilesStep, hac]
      rw [hstep]
      obtain ⟨c', hfold, hc'⟩ :=
        ih ((_cmp fs cache (joinPath a x) (joinPath b x) sh).2)
          (sdf.1, sdf.2.1 ++ [x], sdf.2.2) hcons
      refine ⟨c', ?_, hc'⟩
      rw [hfold]
      simp [List.filter_cons, h1]
    · have hac : (_cmp fs cache (joinPath a x) (joinPath b x) sh).1 = 2 := by
        rw [hcode, h2]
      have hstep : cmpfilesStep fs a b sh (sdf, cache) x =
          ((sdf.1, sdf.2.1, sdf.2.2 ++ [x]),
            (_cmp fs cache (joinPath a x) (joinPath b x) sh).2) := by
        simp [cmpfilesStep, hac]
      rw [hstep]
      obtain ⟨c', hfold, hc'⟩ :=
        ih ((_cmp fs cache (joinPath a x) (joinPath b x) sh).2)
          (sdf.1, sdf.2.1, sdf.2.2 ++ [x]) hcons
      refine ⟨c', ?_, hc'⟩
      rw [hfold]
      simp [List.filter_cons, h2]

end Filecmp

namespace Filecmp

/-- C7: with a consistent cache, `cmpfiles` partitions the input names by
the File Comparator's outcome on each joined path pair — outcome `True`
goes to the first list (same), `False` to the second (different), and an
`OSError` (metadata or read failure) to the third (funny), without
aborting the rest of the batch — and each output list preserves the order
of the input names list (it is a sublist of it). -/
theorem C7_cmpfiles_partition (fs : FS) (cache : Cache) (a b : String)
    (names : List String) (sh : Bool) (hcc : CacheConsistent fs cache) :
    (∀ x, x ∈ (cmpfiles fs cache a b names sh).1.1 ↔
      x ∈ names ∧
        cmpResult fs [] (joinPath a x) (joinPath b x) sh = .ok true) ∧
    (∀ x, x ∈ (cmpfiles fs cache a b names sh).1.2.1 ↔
      x ∈ names ∧
        cmpResult fs [] (joinPath a x) (joinPath b x) sh = .ok false) ∧
    (∀ x, x ∈ (cmpfiles fs cache a b names sh).1.2.2 ↔
      x ∈ names ∧
        ∃ e, cmpResult fs [] (joinPath a x) (joinPath b x) sh = .error e) ∧
    (cmpfiles fs cache a b names sh).1.1.Sublist names ∧
    (cmpfiles fs cache a b names sh).1.2.1.Sublist names ∧
    (cmpfiles fs cache a b names sh).1.2.2.Sublist names := by
  obtain ⟨c', hfold, hc'⟩ :=
    cmpfiles_foldl_spec fs a b sh names cache ([], [], []) hcc
  have hval : (cmpfiles fs cache a b names sh).1 =
      (names.filter
          (fun x => (_cmp fs [] (joinPath a x) (joinPath b x) sh).1 == 0),
        names.filter
          (fun x => (_cmp fs [] (joinPath a x) (joinPath b x) sh).1 == 1),
        names.filter
          (fun x => (_cmp fs [] (joinPath a x) (joinPath b x) sh).1 == 2)) := by
    unfold cmpfiles
    rw [hfold]
    simp
  have h11 := congrArg (fun t => t.1) hval
  have h12 := congrArg (fun t => t.2.1) hval
  have h13 := congrArg (fun t => t.2.2) hval
  simp only at h11 h12 h13
  refine ⟨?_, ?_, ?_, ?_, ?_, ?_⟩
  · intro x
    have hiff := (_cmp_code_iff fs [] (joinPath a x) (joinPath b x) sh).1
    simp only [h11, List.mem_filter, beq_iff_eq]
    rw [hiff]
  · intro x
    have hiff := (_cmp_code_iff fs [] (joinPath a x) (joinPath b x) sh).2.1
    simp only [h12, List.mem_filter, beq_iff_eq]
    rw [hiff]
  · intro x
    have hiff := (_cmp_code_iff fs [] (joinPath a x) (joinPath b x) sh).2.2
    simp only [h13, List.mem_filter, beq_iff_eq]
    rw [hiff]
  · rw [h11]
    exact List.filter_sublist names
  · rw [h12]
    exact List.filter_sublist names
  · rw [h13]
    exact List.filter_sublist names

/-- Directory-pair filesystem for the batch and classifier witnesses:
under `L` and `R` the name `n1` is a regular file with identical content
on both sides, `n2` is a regular file with differing content, and `n3`
cannot be stat'd on the left side. -/
def fs7 : FS :=
  ⟨fun p => if p = "L" ∨ p = "R" then ["n1", "n2", "n3"] else [],
   fun p =>
     if p = "L/n1" then some ⟨FType.regular, 1, 0⟩
     else if p = "R/n1" then some ⟨FType.regular, 1, 9⟩
     else if p = "L/n2" then some ⟨FType.regular, 1, 0⟩
     else if p = "R/n2" then some ⟨FType.regular, 1, 9⟩
     else if p = "R/n3" then some ⟨FType.regular, 1, 0⟩
     else none,
   fun p =>
     if p = "L/n1" then some [7]
     else if p = "R/n1" then some [7]
     else if p = "L/n2" then some [1]
     else if p = "R/n2" then some [2]
     else none,
   fun s => s⟩

theorem C7_cmpfiles_partition_witness :
    "n1" ∈ (cmpfiles fs7 [] "L" "R" ["n1", "n2", "n3"] false).1.1 ∧
    "n2" ∈ (cmpfiles fs7 [] "L" "R" ["n1", "n2", "n3"] false).1.2.1 ∧
    "n3" ∈ (cmpfiles fs7 [] "L" "R" ["n1", "n2", "n3"] false).1.2.2 := by
  have h := C7_cmpfiles_partition fs7 [] "L" "R" ["n1", "n2", "n3"] false
    (cacheConsistent_nil fs7)
  have e1 : cmpResult fs7 [] (joinPath "L" "n1") (joinPath "R" "n1") false =
      .ok true := by
    unfold cmpResult
    rw [cmp_cache_miss fs7 [] (joinPath "L" "n1") (joinPath "R" "n1") false
      ⟨FType.regular, 1, 0⟩ ⟨FType.regular, 1, 9⟩ [7] [7] (by decide)
      (by decide) rfl rfl (by simp) rfl (by decide) (by decide) (by decide),
      _do_cmp_self]
    rfl
  have e2 : cmpResult fs7 [] (joinPath "L" "n2") (joinPath "R" "n2") false =
      .ok false := by
    unfold cmpResult
    rw [cmp_cache_miss fs7 [] (joinPath "L" "n2") (joinPath "R" "n2") false
      ⟨FType.regular, 1, 0⟩ ⟨FType.regular, 1, 9⟩ [1] [2] (by decide)
      (by decide) rfl rfl (by simp) rfl (by decide) (by decide) (by decide),
      (_do_cmp_eq_false_iff [1] [2]).mpr (by decide)]
    rfl
  have e3 : cmpResult fs7 [] (joinPath "L" "n3") (joinPath "R" "n3") false =
      .error CmpError.metadata := by
    unfold cmpResult
    rw [cmp_stat_none_left fs7 [] (joinPath "L" "n3") (joinPath "R" "n3")
      false (by decide)]
    rfl
  exact ⟨(h.1 "n1").mpr ⟨by decide, e1⟩,
    (h.2.1 "n2").mpr ⟨by decide, e2⟩,
    (h.2.2.1 "n3").mpr ⟨by decide, CmpError.metadata, e3⟩⟩

end Filecmp

namespace Filecmp

/-! ### Lemmas: Python dicts as built by `phase1` -/

theorem zip_map_self {α β : Type} (f : α → β) (l : List α) :
    List.zip (l.map f) l = l.map (fun x => (f x, x)) := by
  induction l with
  | nil => rfl
  | cons x xs ih => simp [ih]

theorem mem_dictSet (d : StrDict) (k v : String) (p : String × String)
    (hp : p ∈ dictSet d k v) : p ∈ d ∨ p = (k, v) := by
  unfold dictSet at hp
  split at hp
  · rcases List.mem_map.mp hp with ⟨q, hq, hmap⟩
    by_cases hqk : (q.1 == k) = true
    · right
      rw [← hmap, if_pos hqk]
    · left
      rw [← hmap, if_neg hqk]
      exact hq
  · rcases List.mem_append.mp hp with h | h
    · exact Or.inl h
    · right
      simpa using h

theorem mem_dictOf_go (ps : List (String × String)) :
    ∀ (d0 : StrDict) (p : String × String),
      p ∈ List.foldl (fun d q => dictSet d q.1 q.2) d0 ps →
      p ∈ d0 ∨ p ∈ ps := by
  induction ps with
  | nil =>
    intro d0 p h
    left
    simpa using h
  | cons q qs ih =>
    intro d0 p h
    rw [List.foldl_cons] at h
    rcases ih (dictSet d0 q.1 q.2) p h with h1 | h1
    · rcases mem_dictSet d0 q.1 q.2 p h1 with h2 | h2
      · exact Or.inl h2
      · right
        rw [h2]
        simp
    · right
      exact List.mem_cons_of_mem _ h1

theorem mem_dictOf (ps : List (String × String)) (p : String × String)
    (hp : p ∈ dictOf ps) : p ∈ ps := by
  rcases mem_dictOf_go ps [] p hp with h | h
  · simp at h
  · exact h

theorem mem_keys_dictSet (d : StrDict) (k v k' : String) :
    k' ∈ (dictSet d k v).map Prod.fst ↔ k' ∈ d.map Prod.fst ∨ k' = k := by
  unfold dictSet
  split
  case isTrue h =>
    have hkeys : (d.map (fun p => if p.1 == k then (k, v) else p)).map
        Prod.fst = d.map Prod.fst := by
      rw [List.map_map]
      apply List.map_congr_left
      intro p _
      by_cases hpk : (p.1 == k) = true
      · have : p.1 = k := by simpa using hpk
        simp [hpk, this]
      · have hne : p.1 ≠ k := by simpa using hpk
        simp [hpk, hne]
    rw [hkeys]
    constructor
    · exact Or.inl
    · rintro (hm | hk)
      · exact hm
      · subst hk
        rcases List.any_eq_true.mp h with ⟨p, hp, hpk⟩
        exact List.mem_map.mpr ⟨p, hp, by simpa using hpk⟩
  case isFalse h =>
    simp

theorem mem_keys_dictOf_go (ps : List (String × String)) :
    ∀ (d0 : StrDict) (k : String),
      k ∈ (List.foldl (fun d q => dictSet d q.1 q.2) d0 ps).map Prod.fst ↔
      k ∈ d0.map Prod.fst ∨ k ∈ ps.map Prod.fst := by
  induction ps with
  | nil =>
    intro d0 k
    simp
  | cons q qs ih =>
    intro d0 k
    rw [List.foldl_cons, ih (dictSet d0 q.1 q.2), mem_keys_dictSet]
    simp
    tauto

theorem mem_keys_dictOf (ps : List (String × String)) (k : String) :
    k ∈ (dictOf ps).map Prod.fst ↔ k ∈ ps.map Prod.fst := by
  unfold dictOf
  rw [mem_keys_dictOf_go ps [] k]
  simp

theorem dictContains_iff_mem_keys (d : StrDict) (k : String) :
    dictContains d k = true ↔ k ∈ d.map Prod.fst := by
  unfold dictContains
  rw [List.any_eq_true, List.mem_map]
  constructor
  · rintro ⟨p, hp, hpk⟩
    exact ⟨p, hp, by simpa using hpk⟩
  · rintro ⟨p, hp, hpk⟩
    exact ⟨p, hp, by simpa using hpk⟩

theorem dictGet_mem (d : StrDict) (k : String)
    (h : dictContains d k = true) : (k, dictGet d k) ∈ d := by
  unfold dictContains at h
  unfold dictGet
  cases hf : d.find? (fun p => p.1 == k) with
  | none =>
    rw [List.find?_eq_none] at hf
    rcases List.any_eq_true.mp h with ⟨p, hp, hpk⟩
    exact absurd hpk (by simpa using hf p hp)
  | some q =>
    have hq := List.find?_some hf
    have hqm := List.mem_of_find?_eq_some hf
    have hk : q.1 = k := by simpa using hq
    simp only [Option.map_some', Option.getD_some]
    rw [← hk]
    simpa using hqm

end Filecmp

namespace Filecmp

/-! ### Lemmas: `phase1` -/

theorem phase1a_pairs (fs : FS) (d : DirCmp) (p : String × String)
    (hp : p ∈ phase1a fs d) :
    p.1 = fs.normcase p.2 ∧ p.2 ∈ left_list fs d := by
  unfold phase1a at hp
  rw [zip_map_self] at hp
  rcases List.mem_map.mp (mem_dictOf _ _ hp) with ⟨x, hx, hxp⟩
  rw [← hxp]
  exact ⟨rfl, hx⟩

theorem phase1b_pairs (fs : FS) (d : DirCmp) (p : String × String)
    (hp : p ∈ phase1b fs d) :
    p.1 = fs.normcase p.2 ∧ p.2 ∈ right_list fs d := by
  unfold phase1b at hp
  rw [zip_map_self] at hp
  rcases List.mem_map.mp (mem_dictOf _ _ hp) with ⟨x, hx, hxp⟩
  rw [← hxp]
  exact ⟨rfl, hx⟩

theorem phase1a_keys (fs : FS) (d : DirCmp) (k : String) :
    k ∈ (phase1a fs d).map Prod.fst ↔
      ∃ x ∈ left_list fs d, fs.normcase x = k := by
  unfold phase1a
  rw [zip_map_self, mem_keys_dictOf, List.map_map]
  simp [List.mem_map, Function.comp]

theorem phase1b_keys (fs : FS) (d : DirCmp) (k : String) :
    k ∈ (phase1b fs d).map Prod.fst ↔
      ∃ x ∈ right_list fs d, fs.normcase x = k := by
  unfold phase1b
  rw [zip_map_self, mem_keys_dictOf, List.map_map]
  simp [List.mem_map, Function.comp]

theorem mem_common_iff (fs : FS) (d : DirCmp) (s : String) :
    s ∈ common fs d ↔ ∃ k, k ∈ (phase1a fs d).map Prod.fst ∧
      dictContains (phase1b fs d) k = true ∧
      s = dictGet (phase1a fs d) k := by
  unfold common
  rw [List.mem_map]
  constructor
  · rintro ⟨k, hk, hks⟩
    rw [List.mem_filter] at hk
    exact ⟨k, hk.1, hk.2, hks.symm⟩
  · rintro ⟨k, h1, h2, h3⟩
    exact ⟨k, List.mem_filter.mpr ⟨h1, h2⟩, h3.symm⟩

theorem mem_left_only_iff (fs : FS) (d : DirCmp) (s : String) :
    s ∈ left_only fs d ↔ ∃ k, k ∈ (phase1a fs d).map Prod.fst ∧
      dictContains (phase1b fs d) k = false ∧
      s = dictGet (phase1a fs d) k := by
  unfold left_only
  rw [List.mem_map]
  constructor
  · rintro ⟨k, hk, hks⟩
    rw [List.mem_filter] at hk
    refine ⟨k, hk.1, ?_, hks.symm⟩
    simpa using hk.2
  · rintro ⟨k, h1, h2, h3⟩
    refine ⟨k, List.mem_filter.mpr ⟨h1, ?_⟩, h3.symm⟩
    simpa using h2

theorem mem_right_only_iff (fs : FS) (d : DirCmp) (s : String) :
    s ∈ right_only fs d ↔ ∃ k, k ∈ (phase1b fs d).map Prod.fst ∧
      dictContains (phase1a fs d) k = false ∧
      s = dictGet (phase1b fs d) k := by
  unfold right_only
  rw [List.mem_map]
  constructor
  · rintro ⟨k, hk, hks⟩
    rw [List.mem_filter] at hk
    refine ⟨k, hk.1, ?_, hks.symm⟩
    simpa using hk.2
  · rintro ⟨k, h1, h2, h3⟩
    refine ⟨k, List.mem_filter.mpr ⟨h1, ?_⟩, h3.symm⟩
    simpa using h2

/-- The three facts that identify an element of `common`: it carries the
left side's original casing, and its normalized name is a key of both
dicts. -/
theorem common_elem_spec (fs : FS) (d : DirCmp) (s : String)
    (hs : s ∈ common fs d) :
    s ∈ left_list fs d ∧
    fs.normcase s ∈ (phase1a fs d).map Prod.fst ∧
    dictContains (phase1b fs d) (fs.normcase s) = true := by
  rcases (mem_common_iff fs d s).mp hs with ⟨k, hk, hkb, hsg⟩
  have hcont : dictContains (phase1a fs d) k = true :=
    (dictContains_iff_mem_keys _ _).mpr hk
  have hmem := dictGet_mem _ _ hcont
  rw [← hsg] at hmem
  have hshape := phase1a_pairs fs d (k, s) hmem
  refine ⟨hshape.2, ?_, ?_⟩
  · rw [← hshape.1]
    exact hk
  · rw [← hshape.1]
    exact hkb

theorem left_only_elem_spec (fs : FS) (d : DirCmp) (s : String)
    (hs : s ∈ left_only fs d) :
    s ∈ left_list fs d ∧
    fs.normcase s ∈ (phase1a fs d).map Prod.fst ∧
    dictContains (phase1b fs d) (fs.normcase s) = false := by
  rcases (mem_left_only_iff fs d s).mp hs with ⟨k, hk, hkb, hsg⟩
  have hcont : dictContains (phase1a fs d) k = true :=
    (dictContains_iff_mem_keys _ _).mpr hk
  have hmem := dictGet_mem _ _ hcont
  rw [← hsg] at hmem
  have hshape := phase1a_pairs fs d (k, s) hmem
  refine ⟨hshape.2, ?_, ?_⟩
  · rw [← hshape.1]
    exact hk
  · rw [← hshape.1]
    exact hkb

theorem right_only_elem_spec (fs : FS) (d : DirCmp) (s : String)
    (hs : s ∈ right_only fs d) :
    s ∈ right_list fs d ∧
    fs.normcase s ∈ (phase1b fs d).map Prod.fst ∧
    dictContains (phase1a fs d) (fs.normcase s) = false := by
  rcases (mem_right_only_iff fs d s).mp hs with ⟨k, hk, hkb, hsg⟩
  have hcont : dictContains (phase1b fs d) k = true :=
    (dictContains_iff_mem_keys _ _).mpr hk
  have hmem := dictGet_mem _ _ hcont
  rw [← hsg] at hmem
  have hshape := phase1b_pairs fs d (k, s) hmem
  refine ⟨hshape.2, ?_, ?_⟩
  · rw [← hshape.1]
    exact hk
  · rw [← hshape.1]
    exact hkb

/-- Every name of the left listing is represented, up to case
normalization, in `common` or in `left_only`. -/
theorem cover_left (fs : FS) (d : DirCmp) (x : String)
    (hx : x ∈ left_list fs d) :
    (∃ s ∈ common fs d, fs.normcase s = fs.normcase x) ∨
    (∃ s ∈ left_only fs d, fs.normcase s = fs.normcase x) := by
  have hk : fs.normcase x ∈ (phase1a fs d).map Prod.fst :=
    (phase1a_keys fs d _).mpr ⟨x, hx, rfl⟩
  have hcont : dictContains (phase1a fs d) (fs.normcase x) = true :=
    (dictContains_iff_mem_keys _ _).mpr hk
  have hmem := dictGet_mem _ _ hcont
  have hshape := phase1a_pairs fs d _ hmem
  by_cases hb : dictContains (phase1b fs d) (fs.normcase x) = true
  · left
    exact ⟨dictGet (phase1a fs d) (fs.normcase x),
      (mem_common_iff fs d _).mpr ⟨fs.normcase x, hk, hb, rfl⟩,
      hshape.1.symm⟩
  · right
    exact ⟨dictGet (phase1a fs d) (fs.normcase x),
      (mem_left_only_iff fs d _).mpr
        ⟨fs.normcase x, hk, by simpa using hb, rfl⟩,
      hshape.1.symm⟩

/-- Every name of the right listing is represented, up to case
normalization, in `common` or in `right_only`. -/
theorem cover_right (fs : FS) (d : DirCmp) (x : String)
    (hx : x ∈ right_list fs d) :
    (∃ s ∈ common fs d, fs.normcase s = fs.normcase x) ∨
    (∃ s ∈ right_only fs d, fs.normcase s = fs.normcase x) := by
  have hk : fs.normcase x ∈ (phase1b fs d).map Prod.fst :=
    (phase1b_keys fs d _).mpr ⟨x, hx, rfl⟩
  have hcontb : dictContains (phase1b fs d) (fs.normcase x) = true :=
    (dictContains_iff_mem_keys _ _).mpr hk
  have hmem := dictGet_mem _ _ hcontb
  have hshape := phase1b_pairs fs d _ hmem
  by_cases ha : dictContains (phase1a fs d) (fs.normcase x) = true
  · left
    have hka : fs.normcase x ∈ (phase1a fs d).map Prod.fst :=
      (dictContains_iff_mem_keys _ _).mp ha
    have hmema := dictGet_mem _ _ ha
    have hshapea := phase1a_pairs fs d _ hmema
    exact ⟨dictGet (phase1a fs d) (fs.normcase x),
      (mem_common_iff fs d _).mpr ⟨fs.normcase x, hka, hcontb, rfl⟩,
      hshapea.1.symm⟩
  · right
    exact ⟨dictGet (phase1b fs d) (fs.normcase x),
      (mem_right_only_iff fs d _).mpr
        ⟨fs.normcase x, hk, by simpa using ha, rfl⟩,
      hshape.1.symm⟩

end Filecmp

namespace Filecmp

/-- C1: the `phase1` partition of the two filtered listings.  The three
output lists `common` / `left_only` / `right_only` are pairwise disjoint
on case-normalized names; each output preserves its side's original-case
filename (it is drawn from that side's filtered listing); and through the
normalizer, the union of the three outputs is exactly the union of the
two filtered listings. -/
theorem C1_phase1_partition (fs : FS) (d : DirCmp) :
    (∀ s t, s ∈ common fs d → t ∈ left_only fs d →
      fs.normcase s ≠ fs.normcase t) ∧
    (∀ s t, s ∈ common fs d → t ∈ right_only fs d →
      fs.normcase s ≠ fs.normcase t) ∧
    (∀ s t, s ∈ left_only fs d → t ∈ right_only fs d →
      fs.normcase s ≠ fs.normcase t) ∧
    (∀ s, s ∈ common fs d → s ∈ left_list fs d) ∧
    (∀ s, s ∈ left_only fs d → s ∈ left_list fs d) ∧
    (∀ s, s ∈ right_only fs d → s ∈ right_list fs d) ∧
    (∀ n, (∃ s, (s ∈ common fs d ∨ s ∈ left_only fs d ∨
        s ∈ right_only fs d) ∧ fs.normcase s = n) ↔
      (∃ x, (x ∈ left_list fs d ∨ x ∈ right_list fs d) ∧
        fs.normcase x = n)) := by
  refine ⟨?_, ?_, ?_, ?_, ?_, ?_, ?_⟩
  · intro s t hs ht heq
    have h1 := (common_elem_spec fs d s hs).2.2
    have h2 := (left_only_elem_spec fs d t ht).2.2
    rw [heq, h2] at h1
    exact absurd h1 (by simp)
  · intro s t hs ht heq
    have ha : dictContains (phase1a fs d) (fs.normcase s) = true :=
      (dictContains_iff_mem_keys _ _).mpr (common_elem_spec fs d s hs).2.1
    have h2 := (right_only_elem_spec fs d t ht).2.2
    rw [heq, h2] at ha
    exact absurd ha (by simp)
  · intro s t hs ht heq
    have ha : dictContains (phase1a fs d) (fs.normcase s) = true :=
      (dictContains_iff_mem_keys _ _).mpr
        (left_only_elem_spec fs d s hs).2.1
    have h2 := (right_only_elem_spec fs d t ht).2.2
    rw [heq, h2] at ha
    exact absurd ha (by simp)
  · intro s hs
    exact (common_elem_spec fs d s hs).1
  · intro s hs
    exact (left_only_elem_spec fs d s hs).1
  · intro s hs
    exact (right_only_elem_spec fs d s hs).1
  · intro n
    constructor
    · rintro ⟨s, hmem, hns⟩
      rcases hmem with h | h | h
      · exact ⟨s, Or.inl (common_elem_spec fs d s h).1, hns⟩
      · exact ⟨s, Or.inl (left_only_elem_spec fs d s h).1, hns⟩
      · exact ⟨s, Or.inr (right_only_elem_spec fs d s h).1, hns⟩
    · rintro ⟨x, hmem, hnx⟩
      rcases hmem with h | h
      · rcases cover_left fs d x h with ⟨s, hs, hseq⟩ | ⟨s, hs, hseq⟩
        · exact ⟨s, Or.inl hs, by rw [hseq, hnx]⟩
        · exact ⟨s, Or.inr (Or.inl hs), by rw [hseq, hnx]⟩
      · rcases cover_right fs d x h with ⟨s, hs, hseq⟩ | ⟨s, hs, hseq⟩
        · exact ⟨s, Or.inl hs, by rw [hseq, hnx]⟩
        · exact ⟨s, Or.inr (Or.inr hs), by rw [hseq, hnx]⟩

/-- A filesystem with case-colliding names across the two sides: the left
directory holds `Foo`, `bar` and an ignored `.git`, the right one holds
`foo` and `baz`; the normalizer sends `Foo` to `foo`. -/
def fsC1 : FS :=
  ⟨fun p =>
     if p = "L" then ["Foo", "bar", ".git"]
     else if p = "R" then ["foo", "baz"]
     else [],
   fun _ => none,
   fun _ => none,
   fun s => if s = "Foo" then "foo" else s⟩

/-- `dircmp("L", "R")` with default ignore and hide lists. -/
def dC1 : DirCmp := dircmpInit "L" "R" none none

theorem C1_phase1_partition_witness :
    fsC1.normcase "Foo" ≠ fsC1.normcase "bar" ∧
    "Foo" ∈ left_list fsC1 dC1 ∧
    "baz" ∈ right_list fsC1 dC1 ∧
    (∃ x, (x ∈ left_list fsC1 dC1 ∨ x ∈ right_list fsC1 dC1) ∧
      fsC1.normcase x = "foo") := by
  have h := C1_phase1_partition fsC1 dC1
  exact ⟨h.1 "Foo" "bar" (by decide) (by decide),
    h.2.2.2.1 "Foo" (by decide),
    h.2.2.2.2.2.1 "baz" (by decide),
    (h.2.2.2.2.2.2 "foo").mp ⟨"Foo", Or.inl (by decide), by decide⟩⟩

end Filecmp

namespace Filecmp

/-! ### Lemmas: `phase2` -/

/-- The bucket `phase2` assigns to one common name. -/
inductive P2Class where
  | dirs : P2Class
  | files : P2Class
  | funny : P2Class
deriving DecidableEq, Repr

/-- The classification decision of the `phase2` loop body for one common
name (same case order as the source). -/
def classifyCommon (fs : FS) (l r x : String) : P2Class :=
  match fs.stat (joinPath l x), fs.stat (joinPath r x) with
  | some aStat, some bStat =>
    if aStat.ftype ≠ bStat.ftype then .funny
    else if aStat.ftype = FType.directory then .dirs
    else if aStat.ftype = FType.regular then .files
    else .funny
  | _, _ => .funny

theorem phase2Step_eq (fs : FS) (l r : String)
    (acc : List String × List String × List String) (x : String) :
    phase2Step fs l r acc x =
      match classifyCommon fs l r x with
      | .dirs => (acc.1 ++ [x], acc.2.1, acc.2.2)
      | .files => (acc.1, acc.2.1 ++ [x], acc.2.2)
      | .funny => (acc.1, acc.2.1, acc.2.2 ++ [x]) := by
  unfold phase2Step classifyCommon
  cases h1 : fs.stat (joinPath l x) with
  | none => rfl
  | some sa =>
    cases h2 : fs.stat (joinPath r x) with
    | none => rfl
    | some sb =>
      by_cases ht : sa.ftype = sb.ftype
      · by_cases hd : sa.ftype = FType.directory
        · have hd2 : sb.ftype = FType.directory := by
            rw [← ht]
            exact hd
          simp [ht, hd, hd2]
        · have hd2 : ¬sb.ftype = FType.directory := by
            rw [← ht]
            exact hd
          by_cases hr : sa.ftype = FType.regular
          · have hr2 : sb.ftype = FType.regular := by
              rw [← ht]
              exact hr
            simp [ht, hd, hd2, hr, hr2]
          · have hr2 : ¬sb.ftype = FType.regular := by
              rw [← ht]
              exact hr
            simp [ht, hd, hd2, hr, hr2]
      · simp [ht]

theorem phase2_foldl_spec (fs : FS) (l r : String) (names : List String) :
    ∀ acc : List String × List String × List String,
    List.foldl (phase2Step fs l r) acc names =
      (acc.1 ++ names.filter
          (fun x => classifyCommon fs l r x == P2Class.dirs),
        acc.2.1 ++ names.filter
          (fun x => classifyCommon fs l r x == P2Class.files),
        acc.2.2 ++ names.filter
          (fun x => classifyCommon fs l r x == P2Class.funny)) := by
  induction names with
  | nil =>
    intro acc
    simp
  | cons x rest ih =>
    intro acc
    rw [List.foldl_cons, phase2Step_eq]
    cases hc : classifyCommon fs l r x <;>
      simp [ih, List.filter_cons, hc]

theorem phase2_filters (fs : FS) (d : DirCmp) :
    common_dirs fs d = (common fs d).filter
      (fun x => classifyCommon fs d.left d.right x == P2Class.dirs) ∧
    common_files fs d = (common fs d).filter
      (fun x => classifyCommon fs d.left d.right x == P2Class.files) ∧
    common_funny fs d = (common fs d).filter
      (fun x => classifyCommon fs d.left d.right x == P2Class.funny) := by
  unfold common_dirs common_files common_funny phase2
  rw [phase2_foldl_spec]
  simp

/-- The condition under which `phase2` declares a common name funny: a
stat failure on either side, or a type mismatch, or a matching type that
is neither regular nor directory. -/
def funnyCondition (fs : FS) (l r x : String) : Prop :=
  (fs.stat (joinPath l x) = none ∨ fs.stat (joinPath r x) = none) ∨
  (∃ sa sb, fs.stat (joinPath l x) = some sa ∧
    fs.stat (joinPath r x) = some sb ∧
    (sa.ftype ≠ sb.ftype ∨
      (sa.ftype ≠ FType.regular ∧ sa.ftype ≠ FType.directory)))

theorem classifyCommon_funny_iff (fs : FS) (l r x : String) :
    classifyCommon fs l r x = P2Class.funny ↔ funnyCondition fs l r x := by
  unfold classifyCommon funnyCondition
  cases h1 : fs.stat (joinPath l x) with
  | none => simp
  | some sa =>
    cases h2 : fs.stat (joinPath r x) with
    | none => simp
    | some sb =>
      by_cases ht : sa.ftype = sb.ftype
      · by_cases hd : sa.ftype = FType.directory
        · have hd2 : sb.ftype = FType.directory := by
            rw [← ht]
            exact hd
          simp [ht, hd, hd2]
        · have hd2 : ¬sb.ftype = FType.directory := by
            rw [← ht]
            exact hd
          by_cases hr : sa.ftype = FType.regular
          · have hr2 : sb.ftype = FType.regular := by
              rw [← ht]
              exact hr
            simp [ht, hd, hd2, hr, hr2]
          · have hr2 : ¬sb.ftype = FType.regular := by
              rw [← ht]
              exact hr
            simp [ht, hd, hd2, hr, hr2]
      · simp [ht]

theorem classifyCommon_files_inv (fs : FS) (l r x : String)
    (h : classifyCommon fs l r x = P2Class.files) :
    ∃ sa sb, fs.stat (joinPath l x) = some sa ∧
      fs.stat (joinPath r x) = some sb ∧
      sa.ftype = FType.regular ∧ sb.ftype = FType.regular := by
  unfold classifyCommon at h
  cases h1 : fs.stat (joinPath l x) with
  | none => rw [h1] at h; exact absurd h (by simp)
  | some sa =>
    cases h2 : fs.stat (joinPath r x) with
    | none => rw [h1, h2] at h; exact absurd h (by simp)
    | some sb =>
      rw [h1, h2] at h
      by_cases ht : sa.ftype = sb.ftype
      · by_cases hd : sa.ftype = FType.directory
        · exfalso
          have hd2 : sb.ftype = FType.directory := by
            rw [← ht]
            exact hd
          simp [ht, hd2] at h
        · by_cases hr : sa.ftype = FType.regular
          · refine ⟨sa, sb, rfl, rfl, hr, ?_⟩
            rw [← ht]
            exact hr
          · exfalso
            have hd2 : ¬sb.ftype = FType.directory := by
              rw [← ht]
              exact hd
            have hr2 : ¬sb.ftype = FType.regular := by
              rw [← ht]
              exact hr
            simp [ht, hd2, hr2] at h
      · exfalso
        simp [ht] at h

end Filecmp

namespace Filecmp

/-- C2: the `phase2` classification partitions `common`: the three lists
`common_dirs` / `common_files` / `common_funny` are pairwise disjoint and
their union is exactly `common`; and a common name that cannot be stat'd
on either side, or whose type differs between the sides, or whose type is
neither regular file nor directory, lands in `common_funny` and in
neither of the other two lists. -/
theorem C2_phase2_partition (fs : FS) (d : DirCmp) :
    (∀ x, x ∈ common_dirs fs d → x ∉ common_files fs d) ∧
    (∀ x, x ∈ common_dirs fs d → x ∉ common_funny fs d) ∧
    (∀ x, x ∈ common_files fs d → x ∉ common_funny fs d) ∧
    (∀ x, x ∈ common fs d ↔
      x ∈ common_dirs fs d ∨ x ∈ common_files fs d ∨
        x ∈ common_funny fs d) ∧
    (∀ x, x ∈ common fs d → funnyCondition fs d.left d.right x →
      x ∈ common_funny fs d ∧ x ∉ common_dirs fs d ∧
        x ∉ common_files fs d) := by
  obtain ⟨hdd, hff, huu⟩ := phase2_filters fs d
  refine ⟨?_, ?_, ?_, ?_, ?_⟩
  · intro x h1 h2
    rw [hdd, List.mem_filter] at h1
    rw [hff, List.mem_filter] at h2
    have e1 : classifyCommon fs d.left d.right x = P2Class.dirs := by
      simpa using h1.2
    have e2 : classifyCommon fs d.left d.right x = P2Class.files := by
      simpa using h2.2
    rw [e1] at e2
    exact absurd e2 (by simp)
  · intro x h1 h2
    rw [hdd, List.mem_filter] at h1
    rw [huu, List.mem_filter] at h2
    have e1 : classifyCommon fs d.left d.right x = P2Class.dirs := by
      simpa using h1.2
    have e2 : classifyCommon fs d.left d.right x = P2Class.funny := by
      simpa using h2.2
    rw [e1] at e2
    exact absurd e2 (by simp)
  · intro x h1 h2
    rw [hff, List.mem_filter] at h1
    rw [huu, List.mem_filter] at h2
    have e1 : classifyCommon fs d.left d.right x = P2Class.files := by
      simpa using h1.2
    have e2 : classifyCommon fs d.left d.right x = P2Class.funny := by
      simpa using h2.2
    rw [e1] at e2
    exact absurd e2 (by simp)
  · intro x
    constructor
    · intro hx
      cases hclass : classifyCommon fs d.left d.right x with
      | dirs =>
        left
        rw [hdd, List.mem_filter]
        exact ⟨hx, by simp [hclass]⟩
      | files =>
        right
        left
        rw [hff, List.mem_filter]
        exact ⟨hx, by simp [hclass]⟩
      | funny =>
        right
        right
        rw [huu, List.mem_filter]
        exact ⟨hx, by simp [hclass]⟩
    · intro hx
      rcases hx with h | h | h
      · rw [hdd, List.mem_filter] at h
        exact h.1
      · rw [hff, List.mem_filter] at h
        exact h.1
      · rw [huu, List.mem_filter] at h
        exact h.1
  · intro x hx hcond
    have hcl : classifyCommon fs d.left d.right x = P2Class.funny :=
      (classifyCommon_funny_iff fs d.left d.right x).mpr hcond
    refine ⟨?_, ?_, ?_⟩
    · rw [huu, List.mem_filter]
      exact ⟨hx, by simp [hcl]⟩
    · intro hmem
      rw [hdd, List.mem_filter] at hmem
      have e1 : classifyCommon fs d.left d.right x = P2Class.dirs := by
        simpa using hmem.2
      rw [hcl] at e1
      exact absurd e1 (by simp)
    · intro hmem
      rw [hff, List.mem_filter] at hmem
      have e1 : classifyCommon fs d.left d.right x = P2Class.files := by
        simpa using hmem.2
      rw [hcl] at e1
      exact absurd e1 (by simp)

/-- Filesystem for the classifier witness: the common names `d` (both
directories), `f` (both regular), `p` (a special type on both sides),
`s` (unstattable on the right) and `x` (regular vs directory). -/
def fs2 : FS :=
  ⟨fun p => if p = "L" ∨ p = "R" then ["d", "f", "p", "s", "x"] else [],
   fun p =>
     if p = "L/d" ∨ p = "R/d" then some ⟨FType.directory, 0, 0⟩
     else if p = "L/f" ∨ p = "R/f" then some ⟨FType.regular, 1, 0⟩
     else if p = "L/p" ∨ p = "R/p" then some ⟨FType.other 3, 0, 0⟩
     else if p = "L/s" then some ⟨FType.regular, 1, 0⟩
     else if p = "L/x" then some ⟨FType.regular, 1, 0⟩
     else if p = "R/x" then some ⟨FType.directory, 0, 0⟩
     else none,
   fun _ => none,
   fun s => s⟩

/-- `dircmp("L", "R")` over `fs2`, default ignore and hide lists. -/
def d2 : DirCmp := dircmpInit "L" "R" none none

theorem C2_phase2_partition_witness :
    ("x" ∈ common_funny fs2 d2 ∧ "x" ∉ common_dirs fs2 d2 ∧
      "x" ∉ common_files fs2 d2) ∧
    ("d" ∈ common_dirs fs2 d2 ∨ "d" ∈ common_files fs2 d2 ∨
      "d" ∈ common_funny fs2 d2) ∧
    ("f" ∉ common_funny fs2 d2) := by
  have h := C2_phase2_partition fs2 d2
  refine ⟨h.2.2.2.2 "x" (by decide) ?_, (h.2.2.2.1 "d").mp (by decide),
    h.2.2.1 "f" (by decide)⟩
  exact Or.inr ⟨⟨FType.regular, 1, 0⟩, ⟨FType.directory, 0, 0⟩,
    by decide, by decide, Or.inl (by decide)⟩

end Filecmp

namespace Filecmp

/-! ### Lemmas: `phase3` -/

theorem phase3_filters (fs : FS) (cache : Cache) (d : DirCmp)
    (hcc : CacheConsistent fs cache) :
    same_files fs cache d = (common_files fs d).filter
      (fun x =>
        (_cmp fs [] (joinPath d.left x) (joinPath d.right x) false).1 == 0) ∧
    diff_files fs cache d = (common_files fs d).filter
      (fun x =>
        (_cmp fs [] (joinPath d.left x) (joinPath d.right x) false).1 == 1) ∧
    funny_files fs cache d = (common_files fs d).filter
      (fun x =>
        (_cmp fs [] (joinPath d.left x) (joinPath d.right x) false).1 == 2) := by
  obtain ⟨c', hfold, _⟩ := cmpfiles_foldl_spec fs d.left d.right false
    (common_files fs d) cache ([], [], []) hcc
  unfold same_files diff_files funny_files phase3 cmpfiles
  rw [hfold]
  simp

/-- A scratch deep comparison that returns `True` has read both files and
found identical byte contents. -/
theorem cmp_scratch_deep_true (fs : FS) (f1 f2 : String)
    (h : cmpResult fs [] f1 f2 false = .ok true) :
    ∃ c, fs.read f1 = some c ∧ fs.read f2 = some c := by
  unfold cmpResult at h
  cases h1 : fs.stat f1 with
  | none =>
    rw [cmp_stat_none_left fs [] f1 f2 false h1] at h
    simp [Except.map] at h
  | some st1 =>
  cases h2 : fs.stat f2 with
  | none =>
    rw [cmp_stat_none_right fs [] f1 f2 false h2] at h
    simp [Except.map] at h
  | some st2 =>
  by_cases hreg : st1.ftype = FType.regular ∧ st2.ftype = FType.regular
  · obtain ⟨hr1, hr2⟩ := hreg
    by_cases hsz : st1.size = st2.size
    · cases hc1 : fs.read f1 with
      | none =>
        rw [cmp_cache_miss_no_read fs [] f1 f2 false st1 st2 h1 h2 hr1 hr2
          (by simp) hsz (cacheGet_nil _) (Or.inl hc1)] at h
        simp [Except.map] at h
      | some c1 =>
        cases hc2 : fs.read f2 with
        | none =>
          rw [cmp_cache_miss_no_read fs [] f1 f2 false st1 st2 h1 h2 hr1 hr2
            (by simp) hsz (cacheGet_nil _) (Or.inr hc2)] at h
          simp [Except.map] at h
        | some c2 =>
          rw [cmp_cache_miss fs [] f1 f2 false st1 st2 c1 c2 h1 h2 hr1 hr2
            (by simp) hsz (cacheGet_nil _) hc1 hc2] at h
          simp [Except.map] at h
          have hceq := (_do_cmp_eq_true_iff c1 c2).mp h
          exact ⟨c2, by rw [hceq], rfl⟩
    · rw [cmp_size_ne fs [] f1 f2 false st1 st2 h1 h2 hr1 hr2 (by simp)
        hsz] at h
      simp [Except.map] at h
  · have hor : st1.ftype ≠ FType.regular ∨ st2.ftype ≠ FType.regular := by
      rcases not_and_or.mp hreg with hq | hq
      · exact Or.inl hq
      · exact Or.inr hq
    rw [cmp_not_regular fs [] f1 f2 false st1 st2 h1 h2 hor] at h
    simp [Except.map] at h

/-- C10: `phase3` always compares common files with `shallow=False`, so a
name in `same_files` has identical byte contents on both sides. -/
theorem C10_same_files_content_equal (fs : FS) (cache : Cache) (d : DirCmp)
    (hcc : CacheConsistent fs cache) (x : String)
    (hx : x ∈ same_files fs cache d) :
    ∃ c, fs.read (joinPath d.left x) = some c ∧
      fs.read (joinPath d.right x) = some c := by
  obtain ⟨hsf, _, _⟩ := phase3_filters fs cache d hcc
  rw [hsf, List.mem_filter] at hx
  have hcode : (_cmp fs [] (joinPath d.left x) (joinPath d.right x)
      false).1 = 0 := by
    simpa using hx.2
  have hres :=
    ((_cmp_code_iff fs [] (joinPath d.left x) (joinPath d.right x)
      false).1).mp hcode
  exact cmp_scratch_deep_true fs _ _ hres

/-- `dircmp("L", "R")` over `fs7`, default ignore and hide lists. -/
def d7 : DirCmp := dircmpInit "L" "R" none none

theorem C10_same_files_content_equal_witness :
    ∃ c, fs7.read (joinPath d7.left "n1") = some c ∧
      fs7.read (joinPath d7.right "n1") = some c := by
  apply C10_same_files_content_equal fs7 [] d7 (cacheConsistent_nil fs7) "n1"
  obtain ⟨hsf, _, _⟩ := phase3_filters fs7 [] d7 (cacheConsistent_nil fs7)
  rw [hsf, List.mem_filter]
  refine ⟨by decide, ?_⟩
  have hres : cmpResult fs7 [] (joinPath d7.left "n1")
      (joinPath d7.right "n1") false = .ok true := by
    unfold cmpResult
    rw [cmp_cache_miss fs7 [] (joinPath d7.left "n1") (joinPath d7.right "n1")
      false ⟨FType.regular, 1, 0⟩ ⟨FType.regular, 1, 9⟩ [7] [7] (by decide)
      (by decide) rfl rfl (by simp) rfl (by decide) (by decide) (by decide),
      _do_cmp_self]
    rfl
  have hcode :=
    ((_cmp_code_iff fs7 [] (joinPath d7.left "n1") (joinPath d7.right "n1")
      false).1).mpr hres
  simpa using hcode

end Filecmp

namespace Filecmp

/-- Filesystem for the self-comparison counterexample: directory `D`
holds one entry `p` that is stattable but of a type that is neither a
regular file nor a directory (a special file such as a socket). -/
def fs9 : FS :=
  ⟨fun p => if p = "D" then ["p"] else [],
   fun p => if p = "D/p" then some ⟨FType.other 1, 0, 0⟩ else none,
   fun _ => none,
   fun s => s⟩

/-- `dircmp("D", "D")`: the same directory on both sides. -/
def d9 : DirCmp := dircmpInit "D" "D" none none

/-- C9 counterexample: comparing a directory against itself with every
entry stattable can still leave `common_funny` non-empty — a stattable
entry whose type is neither regular nor directory goes to `common_funny`
even though both sides are literally the same path. -/
theorem C9_counterexample :
    (∀ x ∈ common fs9 d9, (fs9.stat (joinPath "D" x)).isSome = true) ∧
    common_funny fs9 d9 = ["p"] ∧ ["p"] ≠ ([] : List String) := by
  refine ⟨by decide, by decide, by decide⟩

/-- C9 amended: comparing a directory against itself (the same path as
both sides), with every common entry stattable and of regular or
directory type, and every regular common entry readable, yields empty
`left_only`, `right_only`, `common_funny`, `diff_files` and
`funny_files`, and every common regular file lands in `same_files`. -/
theorem C9_self_compare (fs : FS) (d : DirCmp) (cache : Cache)
    (hsame : d.left = d.right) (hcc : CacheConsistent fs cache)
    (hstat : ∀ x ∈ common fs d,
      ∃ st, fs.stat (joinPath d.left x) = some st ∧
        (st.ftype = FType.regular ∨ st.ftype = FType.directory) ∧
        (st.ftype = FType.regular →
          ∃ c, fs.read (joinPath d.left x) = some c)) :
    left_only fs d = [] ∧
    right_only fs d = [] ∧
    common_funny fs d = [] ∧
    diff_files fs cache d = [] ∧
    funny_files fs cache d = [] ∧
    same_files fs cache d = common_files fs d := by
  have hab : phase1a fs d = phase1b fs d := by
    unfold phase1a phase1b left_list right_list
    rw [hsame]
  have hlo : left_only fs d = [] := by
    rw [List.eq_nil_iff_forall_not_mem]
    intro s hs
    obtain ⟨_, hk, hcb⟩ := left_only_elem_spec fs d s hs
    have hca : dictContains (phase1a fs d) (fs.normcase s) = true :=
      (dictContains_iff_mem_keys _ _).mpr hk
    rw [hab] at hca
    rw [hca] at hcb
    exact absurd hcb (by simp)
  have hro : right_only fs d = [] := by
    rw [List.eq_nil_iff_forall_not_mem]
    intro s hs
    obtain ⟨_, hk, hcb⟩ := right_only_elem_spec fs d s hs
    have hca : dictContains (phase1b fs d) (fs.normcase s) = true :=
      (dictContains_iff_mem_keys _ _).mpr hk
    rw [← hab] at hca
    rw [hca] at hcb
    exact absurd hcb (by simp)
  have hcf : common_funny fs d = [] := by
    obtain ⟨_, _, huu⟩ := phase2_filters fs d
    rw [huu, List.filter_eq_nil_iff]
    intro x hx hbeq
    obtain ⟨st, hst, htype, _⟩ := hstat x hx
    have hcl : classifyCommon fs d.left d.right x = P2Class.funny := by
      simpa using hbeq
    rw [classifyCommon_funny_iff] at hcl
    have hstr : fs.stat (joinPath d.right x) = some st := by
      rw [← hsame]
      exact hst
    rcases hcl with (h | h) | ⟨sa, sb, hsa, hsb, hor⟩
    · rw [hst] at h
      exact absurd h (by simp)
    · rw [hstr] at h
      exact absurd h (by simp)
    · rw [hst] at hsa
      rw [hstr] at hsb
      have hsa' : sa = st := by
        injection hsa.symm
      have hsb' : sb = st := by
        injection hsb.symm
      subst hsa'
      subst hsb'
      rcases hor with h | h
      · exact h rfl
      · rcases htype with ht | ht
        · exact h.1 ht
        · exact h.2 ht
  have hcode : ∀ x ∈ common_files fs d,
      (_cmp fs [] (joinPath d.left x) (joinPath d.right x) false).1 = 0 := by
    intro x hx
    obtain ⟨_, hff, _⟩ := phase2_filters fs d
    rw [hff, List.mem_filter] at hx
    have hcl : classifyCommon fs d.left d.right x = P2Class.files := by
      simpa using hx.2
    obtain ⟨sa, sb, hsa, hsb, hra, hrb⟩ :=
      classifyCommon_files_inv fs d.left d.right x hcl
    obtain ⟨st, hst, _, hread⟩ := hstat x hx.1
    have hsa' : sa = st := by
      rw [hst] at hsa
      injection hsa.symm
    subst hsa'
    obtain ⟨c, hc⟩ := hread hra
    have hstr : fs.stat (joinPath d.right x) = some sa := by
      rw [← hsame]
      exact hst
    have hcr : fs.read (joinPath d.right x) = some c := by
      rw [← hsame]
      exact hc
    have hres : cmpResult fs [] (joinPath d.left x) (joinPath d.right x)
        false = .ok true := by
      unfold cmpResult
      rw [cmp_cache_miss fs [] (joinPath d.left x) (joinPath d.right x)
        false sa sa c c hst hstr hra hra (by simp) rfl (cacheGet_nil _)
        hc hcr, _do_cmp_self]
      rfl
    exact ((_cmp_code_iff fs [] (joinPath d.left x) (joinPath d.right x)
      false).1).mpr hres
  obtain ⟨hsf, hdf, hfF⟩ := phase3_filters fs cache d hcc
  refine ⟨hlo, hro, hcf, ?_, ?_, ?_⟩
  · rw [hdf, List.filter_eq_nil_iff]
    intro x hx hbeq
    have h1 := hcode x hx
    rw [h1] at hbeq
    exact absurd hbeq (by simp)
  · rw [hfF, List.filter_eq_nil_iff]
    intro x hx hbeq
    have h1 := hcode x hx
    rw [h1] at hbeq
    exact absurd hbeq (by simp)
  · rw [hsf]
    apply List.filter_eq_self.mpr
    intro x hx
    rw [hcode x hx]
    simp

/-- Filesystem for the self-comparison witness: directory `S` holds a
readable regular file `f` and a subdirectory `sub`. -/
def fsSelf : FS :=
  ⟨fun p => if p = "S" then ["f", "sub"] else [],
   fun p =>
     if p = "S/f" then some ⟨FType.regular, 1, 0⟩
     else if p = "S/sub" then some ⟨FType.directory, 0, 0⟩
     else none,
   fun p => if p = "S/f" then some [3] else none,
   fun s => s⟩

/-- `dircmp("S", "S")`. -/
def dS : DirCmp := dircmpInit "S" "S" none none

theorem C9_self_compare_witness :
    left_only fsSelf dS = [] ∧
    right_only fsSelf dS = [] ∧
    common_funny fsSelf dS = [] ∧
    diff_files fsSelf [] dS = [] ∧
    funny_files fsSelf [] dS = [] ∧
    same_files fsSelf [] dS = common_files fsSelf dS := by
  apply C9_self_compare fsSelf dS [] rfl (cacheConsistent_nil fsSelf)
  have hcom : common fsSelf dS = ["f", "sub"] := by decide
  intro x hx
  rw [hcom] at hx
  simp at hx
  rcases hx with rfl | rfl
  · exact ⟨⟨FType.regular, 1, 0⟩, by decide, Or.inl rfl,
      fun _ => ⟨[3], by decide⟩⟩
  · exact ⟨⟨FType.directory, 0, 0⟩, by decide, Or.inr rfl,
      fun hreg => absurd hreg (by decide)⟩

end Filecmp
